import Mathlib

/-!
Shallow embedding of the session lifecycle manager (`api/session_manager.py`)
and the SSE event broadcast service (`api/services/sse_service.py`) of the
repository, together with proofs about the behaviour claimed in the
specification.

Conventions used throughout:
* Python `datetime` values are modelled as integers (`Time := Int`), one unit
  per minute; `timedelta(minutes=m)` is subtraction of `m`.
* `OrderedDict` is modelled as an association list whose head is the
  least-recently-used entry; `move_to_end` removes the entry and appends it.
* Filesystem effects are made observable: operations that may call
  `shutil.rmtree` also return the list of directory paths removed, and take
  an `fs : String → Bool` parameter modelling `os.path.exists`.
* Exceptions are not modelled: every embedded operation is total, mirroring
  the fact that the Python paths exercised by the claims do not raise.
-/

abbrev Time := Int

/-- Python values as they occur in configuration dictionaries and SSE event
payloads.  `enum` is an `Enum` member carrying its `.value`; `datetime`
carries its `isoformat()` rendering; `blob` is any other object, one the
JSON encoder cannot serialise (so `json.dumps` raises on it). -/
inductive PyVal where
  | str (s : String)
  | int (n : Int)
  | bool (b : Bool)
  | none
  | enum (value : String)
  | datetime (iso : String)
  | list (xs : List PyVal)
  | dict (entries : List (String × PyVal))
  | blob
deriving Repr

/-- Python truthiness (`bool(x)`). -/
def pyTruthy : PyVal → Bool
  | .str s => !s.isEmpty
  | .int n => n ≠ 0
  | .bool b => b
  | .none => false
  | .enum _ => true
  | .datetime _ => true
  | .list xs => !xs.isEmpty
  | .dict es => !es.isEmpty
  | .blob => true

/-- `d.get(k)` on an association list representing a Python dict. -/
def pyLookup (l : List (String × PyVal)) (k : String) : Option PyVal :=
  (l.find? (fun p => p.1 = k)).map (·.2)

/-- `d[k] = v` on a Python dict: replace the value in place if the key is
present, otherwise append the new binding at the end (dict insertion order). -/
def pySet (l : List (String × PyVal)) (k : String) (v : PyVal) :
    List (String × PyVal) :=
  if (l.find? (fun p => p.1 = k)).isSome then
    l.map (fun p => if p.1 = k then (k, v) else p)
  else l ++ [(k, v)]

/-- `base.update(add)` / `{**base-literal, **add}`: fold the entries of `add`
into `base` in order. -/
def pyUpdate (base add : List (String × PyVal)) : List (String × PyVal) :=
  add.foldl (fun acc p => pySet acc p.1 p.2) base

/-- Keys of a dict, in insertion order. -/
def pyKeys (l : List (String × PyVal)) : List String := l.map (·.1)

section JsonEncoder

/-- JSON string escaping performed by `json.dumps` with `ensure_ascii=False`:
backslash, double quote and control characters are escaped, everything else
is emitted literally. -/
def escapeJsonChar (c : Char) : String :=
  if c = '\\' then "\\\\"
  else if c = '"' then "\\\""
  else if c = '\n' then "\\n"
  else if c = '\t' then "\\t"
  else if c = '\r' then "\\r"
  else if c.toNat < 32 then
    "\\u00" ++ String.mk [Nat.digitChar (c.toNat / 16), Nat.digitChar (c.toNat % 16)]
  else String.singleton c

def escapeJson (s : String) : String :=
  String.join (s.toList.map escapeJsonChar)

def jsonQuote (s : String) : String := "\"" ++ escapeJson s ++ "\""

mutual

/-- The embedding of `json.dumps(v, ensure_ascii=False, cls=SSEJSONEncoder)`.
The custom encoder's `default` hook turns `Enum` members into their `.value`
and `datetime` objects into their `isoformat()`; any other unknown object
makes `dumps` raise, modelled by `Option.none`.  Default separators are
`", "` and `": "`. -/
def jsonDumps : PyVal → Option String
  | .str s => some (jsonQuote s)
  | .int n => some (toString n)
  | .bool b => some (if b then "true" else "false")
  | .none => some "null"
  | .enum v => some (jsonQuote v)
  | .datetime iso => some (jsonQuote iso)
  | .list xs => do
      let parts ← jsonDumpsList xs
      return "[" ++ String.intercalate ", " parts ++ "]"
  | .dict es => do
      let parts ← jsonDumpsEntries es
      return "\x7b" ++ String.intercalate ", " parts ++ "\x7d"
  | .blob => Option.none

def jsonDumpsList : List PyVal → Option (List String)
  | [] => some []
  | v :: vs => do
      let s ← jsonDumps v
      let rest ← jsonDumpsList vs
      return s :: rest

def jsonDumpsEntries : List (String × PyVal) → Option (List String)
  | [] => some []
  | (k, v) :: es => do
      let s ← jsonDumps v
      let rest ← jsonDumpsEntries es
      return (jsonQuote k ++ ": " ++ s) :: rest

end

end JsonEncoder

section SSEService

/-- The `SSEMessageType` enumeration of `sse_service.py`. -/
inductive SSEMessageType where
  | round_start | round_end | post_start | post_end | post_error
  | post_message_update | post_attachment_update | post_state_update
  | post_send_to_update | file_generated | heartbeat | error
  | session_created | chat_completed | shutdown
deriving DecidableEq, Repr

/-- The `.value` of each `SSEMessageType` member. -/
def SSEMessageType.value : SSEMessageType → String
  | .round_start => "round_start"
  | .round_end => "round_end"
  | .post_start => "post_start"
  | .post_end => "post_end"
  | .post_error => "post_error"
  | .post_message_update => "post_message_update"
  | .post_attachment_update => "post_attachment_update"
  | .post_state_update => "post_status_update"
  | .post_send_to_update => "post_send_to_update"
  | .file_generated => "file_generated"
  | .heartbeat => "heartbeat"
  | .error => "error"
  | .session_created => "session_created"
  | .chat_completed => "chat_completed"
  | .shutdown => "shutdown"

/-- An `SSEMessage`.  `id` and `timestamp` are computed in `__init__` from
the wall clock and a fresh uuid, which the embedding receives as explicit
parameters of `mkSSEMessage`. -/
structure SSEMessage where
  id : String
  type : SSEMessageType
  data : List (String × PyVal)
  session_id : String
  timestamp : String
deriving Repr

/-- `SSEMessage.__init__`: `id = f"msg_{int(now.timestamp()*1000000)}_{uuid4().hex[:8]}"`,
`timestamp = now.isoformat()`. -/
def mkSSEMessage (nowMicros : Nat) (uuidHex8 : String) (tsIso : String)
    (message_type : SSEMessageType) (data : List (String × PyVal))
    (session_id : String) : SSEMessage :=
  { id := "msg_" ++ toString nowMicros ++ "_" ++ uuidHex8
    type := message_type
    data := data
    session_id := session_id
    timestamp := tsIso }

/-- The `safe_data` dict built inside `format_for_sse`:
`{"session_id": ..., "timestamp": ..., **self.data}`. -/
def mergedPayload (msg : SSEMessage) : List (String × PyVal) :=
  pyUpdate [("session_id", PyVal.str msg.session_id),
            ("timestamp", PyVal.str msg.timestamp)] msg.data

/-- The fixed fallback event emitted when JSON encoding raises
(`errNow` is `int(datetime.now().timestamp())` at that moment). -/
def sseErrorFallback (errNow : Nat) : String :=
  "id: error_" ++ toString errNow ++ "\nevent: error\ndata: \x7b\"error\": \"格式化失败\"\x7d\n\n"

/-- `SSEMessage.format_for_sse`. -/
def formatForSSE (errNow : Nat) (msg : SSEMessage) : String :=
  match jsonDumps (PyVal.dict (mergedPayload msg)) with
  | some data_str =>
      let lines := ["id: " ++ msg.id, "event: " ++ msg.type.value]
        ++ (data_str.splitOn "\n").map (fun line => "data: " ++ line)
        ++ [""]
      String.intercalate "\n" lines ++ "\n"
  | Option.none => sseErrorFallback errNow

/-- One subscriber `asyncio.Queue(maxsize=...)`: its capacity and its
current buffered contents (FIFO, oldest first). -/
structure SubQueue where
  maxsize : Nat
  buf : List String
deriving DecidableEq, Repr

/-- A `ConnectionManager` for one session id.  `drop_warnings` counts the
"queue full, message dropped" warnings logged by `broadcast_message`. -/
structure ConnMgr where
  session_id : String
  connections : List SubQueue
  drop_warnings : Nat
deriving DecidableEq, Repr

/-- `ConnectionManager.broadcast_message`: iterate over a snapshot of the
subscriber queues; a queue at capacity (`qsize() >= maxsize`) drops the
message and logs a warning, otherwise `put_nowait` appends it. -/
def broadcastMessage (formatted_data : String) (mgr : ConnMgr) : ConnMgr :=
  if mgr.connections.isEmpty then mgr
  else
    { mgr with
      connections := mgr.connections.map (fun q =>
        if q.maxsize ≤ q.buf.length then q
        else { q with buf := q.buf ++ [formatted_data] })
      drop_warnings := mgr.drop_warnings
        + (mgr.connections.filter (fun q => q.maxsize ≤ q.buf.length)).length }

/-- The `SSEService` state: per-session connection managers, the running
flag, and the sent-message counter. -/
structure SSEState where
  managers : List (String × ConnMgr)
  running : Bool
  total_messages_sent : Nat
deriving DecidableEq, Repr

/-- Association lookup used for `self._session_managers[session_id]`. -/
def sseLookup (st : SSEState) (session_id : String) : Option ConnMgr :=
  (st.managers.find? (fun p => p.1 = session_id)).map (·.2)

/-- `SSEService.send_message`: no-op when the service is stopped; builds and
formats the message; silently returns when the session has no channel;
otherwise broadcasts to that channel and bumps the sent counter. -/
def sendMessage (nowMicros : Nat) (uuidHex8 : String) (tsIso : String)
    (errNow : Nat) (session_id : String) (message_type : SSEMessageType)
    (data : List (String × PyVal)) (st : SSEState) : SSEState :=
  if st.running = false then st
  else
    let msg := mkSSEMessage nowMicros uuidHex8 tsIso message_type data session_id
    let formatted_data := formatForSSE errNow msg
    match sseLookup st session_id with
    | Option.none => st
    | some _ =>
        { st with
          managers := st.managers.map (fun p =>
            if p.1 = session_id then (p.1, broadcastMessage formatted_data p.2) else p)
          total_messages_sent := st.total_messages_sent + 1 }

end SSEService

section Paths

/-- Split a character list on `/` (accumulator holds the current segment,
reversed). -/
def splitSegsAux : List Char → List Char → List String
  | [], acc => [String.mk acc.reverse]
  | c :: cs, acc =>
      if c = '/' then String.mk acc.reverse :: splitSegsAux cs []
      else splitSegsAux cs (c :: acc)

/-- Split a path on `/`, dropping empty components. -/
def splitPath (p : String) : List String :=
  (splitSegsAux p.toList []).filter (fun s => s ≠ "")

/-- Python `str.startswith(prefix)`: the prefix's characters are an initial
segment of the string's characters. -/
def pyStartsWith (s pre : String) : Bool := pre.toList.isPrefixOf s.toList

/-- The component normalisation performed by `os.path.normpath` on an
absolute path: `.` components are dropped and `..` pops the previous
component (or is dropped at the root). -/
def normSegs (segs : List String) : List String :=
  segs.foldl (fun acc s =>
    if s = "." then acc
    else if s = ".." then acc.dropLast
    else acc ++ [s]) []

/-- Render absolute-path components back into a path string. -/
def joinAbs (segs : List String) : String :=
  "/" ++ String.intercalate "/" segs

/-- `os.path.abspath(p)`: join with the working directory when `p` is
relative, then normalise components.  (`abspath` does not resolve
symbolic links.) -/
def abspath (cwd p : String) : String :=
  if pyStartsWith p "/" then joinAbs (normSegs (splitPath p))
  else joinAbs (normSegs (splitPath cwd ++ splitPath p))

/-- Modelled from the spec: the claim-side notion "`p` resolves (after
normalizing `..` segments) under the workspace root": the normalised
components of the root are a component-wise prefix of those of `p`. -/
def resolvesUnder (cwd root p : String) : Bool :=
  (normSegs (splitPath (abspath cwd root))).isPrefixOf
    (normSegs (splitPath (abspath cwd p)))

end Paths

section SessionManager

/-- The fields of a TaskWeaver session object that the manager's teardown
path reads (`execution_cwd`, when the attribute is present). -/
structure TWSession where
  execution_cwd : Option String
deriving DecidableEq, Repr

/-- One value of `self.sessions[session_id]` (the `session_data` dict built
in `create_session`).  `created_at` is stored as `isoformat()` in the
source; since `isoformat` is injective on datetimes the model keeps the
`Time` value itself.  `messages` contents are irrelevant to the claims and
kept abstract as strings. -/
structure SessionData where
  conversation_id : String
  taskweaver_session : Option TWSession
  taskweaver_app : Option Unit
  messages : List String
  created_at : Time
  last_activity : Time
  status : String
  client_ip : Option PyVal
  user_agent : Option PyVal
  is_admin_session : Bool
  created_by : Option PyVal
  last_heartbeat : Time
  workspace_path : Option String
  session_config : List (String × PyVal)
  memory_usage : Nat
  resource_count : Nat
  cleanup_attempts : Nat
  last_cleanup_attempt : Option Time
deriving Repr

/-- The `SessionManager` state: the ordered session table (head =
least-recently-used), the conversation-id map, the constructor
configuration, the tracked workspace path set, and the statistics counters
the claims can observe.  `workspace_base` is the value of
`get_workspace_base_dir()` (deterministic given the configuration) and
`cwd` is the process working directory used by `os.path.abspath`. -/
structure SMState where
  sessions : List (String × SessionData)
  conversation_ids : List (String × String)
  cleanup_interval_minutes : Nat
  max_sessions : Nat
  memory_threshold_percent : Rat
  force_cleanup_threshold_percent : Rat
  session_timeout_minutes : Nat
  workspace_paths : List String
  workspace_base : String
  cwd : String
  total_created : Nat
  total_cleaned : Nat
  timeout_cleanups : Nat
  force_cleanups : Nat
  memory_cleanups : Nat
deriving Repr

/-- `SessionManager.__init__` with the given configuration: empty table,
zeroed statistics. -/
def initSM (cleanup_interval_minutes max_sessions : Nat)
    (memory_threshold_percent force_cleanup_threshold_percent : Rat)
    (session_timeout_minutes : Nat) (workspace_base cwd : String) : SMState :=
  { sessions := []
    conversation_ids := []
    cleanup_interval_minutes := cleanup_interval_minutes
    max_sessions := max_sessions
    memory_threshold_percent := memory_threshold_percent
    force_cleanup_threshold_percent := force_cleanup_threshold_percent
    session_timeout_minutes := session_timeout_minutes
    workspace_paths := []
    workspace_base := workspace_base
    cwd := cwd
    total_created := 0
    total_cleaned := 0
    timeout_cleanups := 0
    force_cleanups := 0
    memory_cleanups := 0 }

/-- `session_id in self.sessions` / `self.sessions[session_id]`. -/
def odLookup (l : List (String × SessionData)) (k : String) : Option SessionData :=
  (l.find? (fun p => p.1 = k)).map (·.2)

/-- `del self.sessions[session_id]` (the key is unique in a dict, so
removing every binding of it is the same operation). -/
def odErase (l : List (String × SessionData)) (k : String) :
    List (String × SessionData) :=
  l.filter (fun p => p.1 ≠ k)

/-- `self.sessions[k] = v` for a key already present: update in place. -/
def odUpdate (l : List (String × SessionData)) (k : String) (v : SessionData) :
    List (String × SessionData) :=
  l.map (fun p => if p.1 = k then (k, v) else p)

/-- `self.sessions.move_to_end(k)`: unlink the entry and append it at the
most-recently-used end. -/
def odMoveToEnd (l : List (String × SessionData)) (k : String) :
    List (String × SessionData) :=
  match odLookup l k with
  | some v => odErase l k ++ [(k, v)]
  | Option.none => l

/-- Keys in LRU order (`list(self.sessions.keys())`). -/
def odKeys (l : List (String × SessionData)) : List String := l.map Prod.fst

end SessionManager

section SessionManagerOps

/-- `SessionManager._cleanup_workspace(workspace_path)`.  Returns the state
(the tracked-path set may shrink) and the list of directories passed to
`shutil.rmtree`.  The early return fires when the path is falsy or does not
exist; the safety check compares `os.path.abspath` strings with
`str.startswith`. -/
def cleanupWorkspace (fs : String → Bool) (workspace_path : String)
    (st : SMState) : SMState × List String :=
  if workspace_path = "" ∨ fs workspace_path = false then (st, [])
  else
    let safe_base := abspath st.cwd st.workspace_base
    let abs_path := abspath st.cwd workspace_path
    if pyStartsWith abs_path safe_base = false then (st, [])
    else
      ({ st with workspace_paths := st.workspace_paths.filter (fun p => p ≠ workspace_path) },
       [abs_path])

/-- `SessionManager._cleanup_taskweaver_session(session_data)`: records the
`execution_cwd` of a live TaskWeaver session as the workspace path (also
tracking it in `_workspace_paths`), nulls the handles, zeroes the resource
counters and bumps `cleanup_attempts`. -/
def cleanupTaskweaverSessionData (now : Time) (st : SMState) (d : SessionData) :
    SMState × SessionData :=
  let d1 := { d with cleanup_attempts := d.cleanup_attempts + 1
                     last_cleanup_attempt := some now
                     taskweaver_session := Option.none
                     taskweaver_app := Option.none
                     memory_usage := 0
                     resource_count := 0 }
  match d.taskweaver_session with
  | some tw =>
      match tw.execution_cwd with
      | some wp =>
          ({ st with workspace_paths :=
               if wp ∈ st.workspace_paths then st.workspace_paths
               else st.workspace_paths ++ [wp] },
           { d1 with workspace_path := some wp })
      | Option.none => (st, d1)
  | Option.none => (st, d1)

/-- `SessionManager._delete_session_internal(session_id)`: `False` for an
unknown id; otherwise tears down the TaskWeaver handles, deletes the
workspace (subject to the safety check), removes the record and the
conversation id, and returns `True`. -/
def deleteSessionInternal (fs : String → Bool) (now : Time) (session_id : String)
    (st : SMState) : Bool × SMState × List String :=
  match odLookup st.sessions session_id with
  | Option.none => (false, st, [])
  | some d =>
      let r1 := cleanupTaskweaverSessionData now st d
      let st2 := { r1.1 with sessions := odUpdate r1.1.sessions session_id r1.2 }
      let r3 :=
        match r1.2.workspace_path with
        | some wp => cleanupWorkspace fs wp st2
        | Option.none => (st2, [])
      let st4 := { r3.1 with
        sessions := odErase r3.1.sessions session_id
        conversation_ids := r3.1.conversation_ids.filter (fun p => p.1 ≠ session_id)
        total_cleaned := r3.1.total_cleaned + 1 }
      (true, st4, r3.2)

/-- `SessionManager.delete_session(session_id)` (takes the lock and calls
the internal deletion). -/
def deleteSession (fs : String → Bool) (now : Time) (session_id : String)
    (st : SMState) : Bool × SMState × List String :=
  deleteSessionInternal fs now session_id st

/-- The `for session_id in ...: if self._delete_session_internal(...)`
loops shared by the cleanup methods: delete each id in order, counting the
successful deletions. -/
def deleteIds (fs : String → Bool) (now : Time) :
    List String → SMState → Nat × SMState × List String
  | [], st => (0, st, [])
  | session_id :: rest, st =>
      let r1 := deleteSessionInternal fs now session_id st
      let r2 := deleteIds fs now rest r1.2.1
      ((if r1.1 then 1 else 0) + r2.1, r2.2.1, r1.2.2 ++ r2.2.2)

/-- `SessionManager._cleanup_lru_sessions(count)`: nothing is deleted when
the table holds at most `count` sessions; otherwise the first `count` keys
in LRU order are deleted. -/
def cleanupLruSessions (fs : String → Bool) (now : Time) (count : Nat)
    (st : SMState) : Nat × SMState × List String :=
  if st.sessions.length ≤ count then (0, st, [])
  else deleteIds fs now ((odKeys st.sessions).take count) st

/-- `SessionManager._enforce_session_limit()`: when the table is at or above
`max_sessions`, LRU-clean `len - max_sessions + 1` sessions. -/
def enforceSessionLimit (fs : String → Bool) (now : Time) (st : SMState) :
    SMState × List String :=
  if st.max_sessions ≤ st.sessions.length then
    let excess_count := st.sessions.length - st.max_sessions + 1
    let r := cleanupLruSessions fs now excess_count st
    (r.2.1, r.2.2)
  else (st, [])

/-- The reserved metadata keys popped out of `custom_config`. -/
def reservedKeys : List String :=
  ["client_ip", "user_agent", "is_admin_session", "created_by"]

/-- The pop loop of `create_session`: for each reserved key present in the
(copied) custom config, move the binding into `meta`. -/
def popReserved (cfg : List (String × PyVal)) :
    List (String × PyVal) × List (String × PyVal) :=
  reservedKeys.foldl
    (fun (acc : List (String × PyVal) × List (String × PyVal)) k =>
      match pyLookup acc.2 k with
      | some v => (acc.1 ++ [(k, v)], acc.2.filter (fun p => p.1 ≠ k))
      | Option.none => acc)
    ([], cfg)

/-- `self.default_config` as assigned in `SessionManager.__init__`. -/
def defaultConfig : List (String × PyVal) :=
  [("llm.api_type", PyVal.str "lingyun"),
   ("llm.model", PyVal.str "qwen2.5-32b"),
   ("execution_service.kernel_mode", PyVal.str "local"),
   ("code_generator.enable_auto_plugin_selection", PyVal.str "false"),
   ("code_generator.allowed_plugins", PyVal.list [PyVal.str "sql_pull_data"]),
   ("code_interpreter.code_verification_on", PyVal.str "false"),
   ("code_interpreter.allowed_modules",
     PyVal.list [PyVal.str "pandas", PyVal.str "matplotlib", PyVal.str "numpy",
       PyVal.str "sklearn", PyVal.str "scipy", PyVal.str "seaborn",
       PyVal.str "datetime", PyVal.str "typing", PyVal.str "json"]),
   ("logging.log_file", PyVal.str "taskweaver.log"),
   ("logging.log_folder", PyVal.str "logs"),
   ("logging.log_level", PyVal.str "WARNING"),
   ("planner.prompt_compression", PyVal.str "true"),
   ("code_generator.prompt_compression", PyVal.str "true"),
   ("session.max_internal_chat_round_num", PyVal.int 15),
   ("session.roles",
     PyVal.list [PyVal.str "planner", PyVal.str "code_interpreter", PyVal.str "recepta"])]

/-- `SessionManager.create_session(session_id, custom_config)` with an
explicit id, the freshly generated conversation uuid `conv`, and the clock
value `now`.  Capacity is enforced first; an id already present is touched
(moved to the MRU end, activity refreshed) and returned; otherwise the
reserved metadata keys are popped from a copy of `custom_config`, the
session config is the default template updated with the remainder, and the
new record is appended. -/
def createSession (fs : String → Bool) (now : Time) (conv : String)
    (session_id : String) (custom_config : Option (List (String × PyVal)))
    (st : SMState) : String × SMState × List String :=
  let st1 := (enforceSessionLimit fs now st).1
  let tr := (enforceSessionLimit fs now st).2
  match odLookup st1.sessions session_id with
  | some d =>
      let st2 := { st1 with sessions := odMoveToEnd st1.sessions session_id }
      let d1 : SessionData := { d with last_activity := now }
      let st3 := { st2 with sessions := odUpdate st2.sessions session_id d1 }
      (session_id, st3, tr)
  | Option.none =>
      let (meta, custom1) :=
        match custom_config with
        | some l =>
            if l.isEmpty then (([] : List (String × PyVal)), some l)
            else
              let (m, rest) := popReserved l
              (m, some rest)
        | Option.none => ([], Option.none)
      let session_config :=
        match custom1 with
        | some rest => if rest.isEmpty then defaultConfig else pyUpdate defaultConfig rest
        | Option.none => defaultConfig
      let session_data : SessionData :=
        { conversation_id := conv
          taskweaver_session := Option.none
          taskweaver_app := Option.none
          messages := []
          created_at := now
          last_activity := now
          status := "active"
          client_ip := pyLookup meta "client_ip"
          user_agent := pyLookup meta "user_agent"
          is_admin_session := pyTruthy ((pyLookup meta "is_admin_session").getD (PyVal.bool false))
          created_by := pyLookup meta "created_by"
          last_heartbeat := now
          workspace_path := Option.none
          session_config := session_config
          memory_usage := 0
          resource_count := 0
          cleanup_attempts := 0
          last_cleanup_attempt := Option.none }
      (session_id,
       { st1 with
         sessions := st1.sessions ++ [(session_id, session_data)]
         conversation_ids := st1.conversation_ids ++ [(session_id, conv)]
         total_created := st1.total_created + 1 },
       tr)

/-- `SessionManager.get_session(session_id)`: refreshes the activity time,
moves the record to the MRU end and returns a deep copy of it. -/
def getSession (now : Time) (session_id : String) (st : SMState) :
    Option SessionData × SMState :=
  match odLookup st.sessions session_id with
  | Option.none => (Option.none, st)
  | some d =>
      let d1 := { d with last_activity := now }
      (some d1,
       { st with sessions := odMoveToEnd (odUpdate st.sessions session_id d1) session_id })

/-- `SessionManager.update_heartbeat(session_id)`: refreshes both
`last_heartbeat` and `last_activity` and touches the LRU position;
`False` for an unknown id. -/
def updateHeartbeat (now : Time) (session_id : String) (st : SMState) :
    Bool × SMState :=
  match odLookup st.sessions session_id with
  | some d =>
      let d1 := { d with last_heartbeat := now, last_activity := now }
      (true,
       { st with sessions := odMoveToEnd (odUpdate st.sessions session_id d1) session_id })
  | Option.none => (false, st)

/-- `SessionManager.cleanup_inactive_sessions(inactive_minutes)`: collect
the ids whose `last_activity` is before `now - inactive_minutes`, delete
them, and return the count. -/
def cleanupInactiveSessions (fs : String → Bool) (now : Time)
    (inactive_minutes : Nat) (st : SMState) : Nat × SMState × List String :=
  let cutoff_time := now - (inactive_minutes : Int)
  let sessions_to_remove :=
    odKeys (st.sessions.filter (fun p => p.2.last_activity < cutoff_time))
  deleteIds fs now sessions_to_remove st

/-- `SessionManager._cleanup_timeout_sessions()`: like the inactivity
cleanup but with the absolute `session_timeout_minutes` threshold, also
bumping the `timeout_cleanups` counter. -/
def cleanupTimeoutSessions (fs : String → Bool) (now : Time) (st : SMState) :
    Nat × SMState × List String :=
  let timeout_threshold := now - (st.session_timeout_minutes : Int)
  let sessions_to_remove :=
    odKeys (st.sessions.filter (fun p => p.2.last_activity < timeout_threshold))
  let r := deleteIds fs now sessions_to_remove st
  (r.1, { r.2.1 with timeout_cleanups := r.2.1.timeout_cleanups + r.1 }, r.2.2)

/-- Stable insertion of an entry into a list sorted by `last_activity`
(the element goes after every entry with a key not greater than its own,
matching Python's stable `sorted`). -/
def insertByActivity (x : String × SessionData) :
    List (String × SessionData) → List (String × SessionData)
  | [] => [x]
  | y :: ys =>
      if x.2.last_activity < y.2.last_activity then x :: y :: ys
      else y :: insertByActivity x ys

/-- `sorted(self.sessions.items(), key=lambda x: x[1]["last_activity"])`
(every record carries a `last_activity`, so the `datetime.min` default of
the source's `.get` never applies). -/
def sortByActivity (l : List (String × SessionData)) :
    List (String × SessionData) :=
  l.foldr insertByActivity []

/-- The deletion loop of `_force_cleanup`: walk the activity-sorted ids,
stopping (`break`) as soon as the table size has dropped to the target. -/
def forceLoop (fs : String → Bool) (now : Time) (target_count : Nat) :
    List String → SMState → Nat × SMState × List String
  | [], st => (0, st, [])
  | session_id :: rest, st =>
      if st.sessions.length ≤ target_count then (0, st, [])
      else
        let r1 := deleteSessionInternal fs now session_id st
        let r2 := forceLoop fs now target_count rest r1.2.1
        ((if r1.1 then 1 else 0) + r2.1, r2.2.1, r1.2.2 ++ r2.2.2)

/-- `SessionManager._force_cleanup()`: delete the oldest-activity sessions
until at most `max(1, n // 3)` remain, where `n` is the table size at
entry. -/
def forceCleanup (fs : String → Bool) (now : Time) (st : SMState) :
    Nat × SMState × List String :=
  let initial_count := st.sessions.length
  let target_count := max 1 (initial_count / 3)
  let sessions_by_activity := sortByActivity st.sessions
  forceLoop fs now target_count (odKeys sessions_by_activity) st

/-- `SessionManager._aggressive_cleanup()`: inactivity cleanup with a
shortened timeout, then an LRU batch of two when that freed too little and
the table is still more than half full. -/
def aggressiveCleanup (fs : String → Bool) (now : Time) (st : SMState) :
    Nat × SMState × List String :=
  let short_timeout := max 5 (st.cleanup_interval_minutes / 3)
  let r1 := cleanupInactiveSessions fs now short_timeout st
  if r1.1 < 2 ∧ st.max_sessions / 2 < r1.2.1.sessions.length then
    let r2 := cleanupLruSessions fs now 2 r1.2.1
    (r1.1 + r2.1, r2.2.1, r1.2.2 ++ r2.2.2)
  else r1

/-- The session-table part of `SessionManager._periodic_cleanup()`: the
timeout sweep always runs first, then the memory tier chooses force,
aggressive or normal cleanup by comparing the sampled usage percentage
strictly against the two thresholds.  (The orphaned-workspace scan, the
async-task reaping and the gc hint that follow do not touch the session
table.) -/
def periodicCleanupBranch (fs : String → Bool) (memory_percent : Rat)
    (now : Time) (st : SMState) : SMState × List String :=
  let r0 := cleanupTimeoutSessions fs now st
  let st1 := r0.2.1
  let tr1 := r0.2.2
  if st1.force_cleanup_threshold_percent < memory_percent then
    let r := forceCleanup fs now st1
    ({ r.2.1 with force_cleanups := r.2.1.force_cleanups + 1 }, tr1 ++ r.2.2)
  else if st1.memory_threshold_percent < memory_percent then
    let r := aggressiveCleanup fs now st1
    ({ r.2.1 with memory_cleanups := r.2.1.memory_cleanups + 1 }, tr1 ++ r.2.2)
  else
    let r := cleanupInactiveSessions fs now st1.cleanup_interval_minutes st1
    (r.2.1, tr1 ++ r.2.2)

end SessionManagerOps

section HeapModel

/-!
A small heap model of Python object identity, used to verify the aliasing
behaviour of the configuration handling in `create_session` (lines 348-361):
mutable containers (dicts and lists) live in heap cells addressed by
natural numbers, while immutable atoms (strings, numbers, booleans, `None`)
are stored inline — Python's `copy.deepcopy` shares immutable atoms, and
sharing them carries no observable structure.  `deepcopy` is embedded
without the memo table for already-copied subobjects: internal sharing
inside one copied value is duplicated instead, which does not affect which
pre-existing objects the copy can reach.
-/

abbrev Addr := Nat

/-- A Python value: an inline immutable atom or a reference to a mutable
container cell. -/
inductive HVal where
  | vstr (s : String)
  | vint (n : Int)
  | vbool (b : Bool)
  | vnone
  | href (a : Addr)
deriving DecidableEq, Repr

/-- A mutable container object stored in a heap cell. -/
inductive HObj where
  | hdict (entries : List (String × HVal))
  | hlist (items : List HVal)
deriving DecidableEq, Repr

structure Heap where
  cells : List (Addr × HObj)
  next : Addr
deriving DecidableEq, Repr

def lookupH (h : Heap) (a : Addr) : Option HObj :=
  (h.cells.find? (fun c => c.1 = a)).map (·.2)

/-- Overwrite the cell at `a` (in-place mutation of a container). -/
def setH (h : Heap) (a : Addr) (o : HObj) : Heap :=
  { h with cells := h.cells.map (fun c => if c.1 = a then (a, o) else c) }

/-- Allocate a fresh cell. -/
def allocH (h : Heap) (o : HObj) : Addr × Heap :=
  (h.next, { cells := h.cells ++ [(h.next, o)], next := h.next + 1 })

/-- The addresses referenced directly by a value. -/
def refsOfVal : HVal → List Addr
  | .href a => [a]
  | _ => []

/-- The addresses referenced directly by a container object. -/
def refsOfObj : HObj → List Addr
  | .hdict es => es.flatMap (fun e => refsOfVal e.2)
  | .hlist xs => xs.flatMap refsOfVal

/-- Every cell address and every reference in the heap is below `next`. -/
def heapBounded (h : Heap) : Bool :=
  h.cells.all (fun c =>
    decide (c.1 < h.next) && (refsOfObj c.2).all (fun b => decide (b < h.next)))

mutual

/-- `copy.deepcopy` on a value: atoms are returned as-is (immutable),
containers are copied recursively into fresh cells.  The fuel bounds the
number of recursion steps; `none` means the fuel ran out (which cannot
happen on an acyclic value once the fuel exceeds its total size). -/
def deepcopyV : Nat → Heap → HVal → Option (HVal × Heap)
  | _, h, .vstr s => some (.vstr s, h)
  | _, h, .vint n => some (.vint n, h)
  | _, h, .vbool b => some (.vbool b, h)
  | _, h, .vnone => some (.vnone, h)
  | 0, _, .href _ => Option.none
  | fuel + 1, h, .href a => do
      let o ← lookupH h a
      match o with
      | .hdict es => do
          let r ← deepcopyEs fuel h es
          return (.href (allocH r.2 (.hdict r.1)).1, (allocH r.2 (.hdict r.1)).2)
      | .hlist xs => do
          let r ← deepcopyXs fuel h xs
          return (.href (allocH r.2 (.hlist r.1)).1, (allocH r.2 (.hlist r.1)).2)

def deepcopyEs : Nat → Heap → List (String × HVal) →
    Option (List (String × HVal) × Heap)
  | _, h, [] => some ([], h)
  | 0, _, _ :: _ => Option.none
  | fuel + 1, h, (k, v) :: es => do
      let rv ← deepcopyV fuel h v
      let res ← deepcopyEs fuel rv.2 es
      return ((k, rv.1) :: res.1, res.2)

def deepcopyXs : Nat → Heap → List HVal → Option (List HVal × Heap)
  | _, h, [] => some ([], h)
  | 0, _, _ :: _ => Option.none
  | fuel + 1, h, v :: vs => do
      let rv ← deepcopyV fuel h v
      let res ← deepcopyXs fuel rv.2 vs
      return (rv.1 :: res.1, res.2)

end

/-- Python truthiness of the object at `a` (`if custom_config:`). -/
def heapTruthy (h : Heap) (a : Addr) : Bool :=
  match lookupH h a with
  | some (.hdict es) => !es.isEmpty
  | some (.hlist xs) => !xs.isEmpty
  | Option.none => false

/-- `d.pop(k)` on the dict cell at `a`: returns the removed value (if the
key was present) and the mutated heap. -/
def popKeyH (h : Heap) (a : Addr) (k : String) : Option HVal × Heap :=
  match lookupH h a with
  | some (.hdict es) =>
      match es.find? (fun e => e.1 = k) with
      | some e => (some e.2, setH h a (.hdict (es.filter (fun e' => e'.1 ≠ k))))
      | Option.none => (Option.none, h)
  | _ => (Option.none, h)

/-- The pop loop over the reserved metadata keys, at heap level. -/
def popReservedH (h : Heap) (a : Addr) : List (String × HVal) × Heap :=
  reservedKeys.foldl
    (fun (acc : List (String × HVal) × Heap) k =>
      let r := popKeyH acc.2 a k
      match r.1 with
      | some v => (acc.1 ++ [(k, v)], r.2)
      | Option.none => (acc.1, r.2))
    ([], h)

/-- `d[k] = v` on the dict cell at `a`. -/
def dictSetH (h : Heap) (a : Addr) (k : String) (v : HVal) : Heap :=
  match lookupH h a with
  | some (.hdict es) =>
      setH h a (.hdict (
        if (es.find? (fun e => e.1 = k)).isSome then
          es.map (fun e => if e.1 = k then (k, v) else e)
        else es ++ [(k, v)]))
  | _ => h

/-- `dst.update(src)` for two dict cells: iterate `src`'s entries, storing
each value (shared, not copied) into `dst`. -/
def updateH (h : Heap) (dst src : Addr) : Heap :=
  match lookupH h src with
  | some (.hdict es) => es.foldl (fun h1 e => dictSetH h1 dst e.1 e.2) h
  | _ => h

/-- The configuration handling of `create_session` (lines 348-361) at heap
level: pop the reserved keys from a deep copy of `custom_config` (when the
latter is truthy), then build `session_config` as a deep copy of
`default_config` updated with the remaining copied entries.  Returns the
address of the stored `session_config`, the extracted `meta` bindings and
the final heap. -/
def buildSessionConfigH (fuel : Nat) (h : Heap) (custom_config : Option Addr)
    (default_config : Addr) : Option (Addr × List (String × HVal) × Heap) :=
  let step1 : Option (Option Addr × List (String × HVal) × Heap) :=
    match custom_config with
    | some ca =>
        if heapTruthy h ca then
          match deepcopyV fuel h (.href ca) with
          | some (.href cc, h1) =>
              let (meta, h2) := popReservedH h1 cc
              some (some cc, meta, h2)
          | _ => Option.none
        else some (some ca, [], h)
    | Option.none => some (Option.none, [], h)
  match step1 with
  | Option.none => Option.none
  | some (custom1, meta, h2) =>
      match deepcopyV fuel h2 (.href default_config) with
      | some (.href sc, h3) =>
          let h4 :=
            match custom1 with
            | some cc => if heapTruthy h3 cc then updateH h3 sc cc else h3
            | Option.none => h3
          some (sc, meta, h4)
      | _ => Option.none

/-- Reachability through the heap: `ReachableH h a b` holds when `b` can be
reached from `a` by following container references. -/
inductive ReachableH (h : Heap) : Addr → Addr → Prop
  | refl (a : Addr) : ReachableH h a a
  | step {a b c : Addr} {o : HObj} : ReachableH h a b → lookupH h b = some o →
      c ∈ refsOfObj o → ReachableH h a c

end HeapModel

def smCfg (st : SMState) :
    Nat × Nat × Rat × Rat × Nat × String × String :=
  (st.cleanup_interval_minutes, st.max_sessions, st.memory_threshold_percent,
   st.force_cleanup_threshold_percent, st.session_timeout_minutes,
   st.workspace_base, st.cwd)

/-- One `create_session` call of a call sequence: clock value, generated
conversation uuid, session id, custom config. -/
def CreateCall : Type := Time × String × String × Option (List (String × PyVal))

/-- Run a sequence of `create_session` calls against a manager state. -/
def runCreates (fs : String → Bool) (calls : List CreateCall) (st : SMState) : SMState :=
  calls.foldl (fun s c => (createSession fs c.1 c.2.1 c.2.2.1 c.2.2.2 s).2.1) st

/-- A session record with the given activity and heartbeat times, used to
build concrete witness states. -/
def mkSD (act hb : Time) (wp : Option String) : SessionData :=
  { conversation_id := "conv"
    taskweaver_session := Option.none
    taskweaver_app := Option.none
    messages := []
    created_at := 0
    last_activity := act
    status := "active"
    client_ip := Option.none
    user_agent := Option.none
    is_admin_session := false
    created_by := Option.none
    last_heartbeat := hb
    workspace_path := wp
    session_config := []
    memory_usage := 0
    resource_count := 0
    cleanup_attempts := 0
    last_cleanup_attempt := Option.none }

/-- Concrete state with two sessions under `max_sessions = 2`, for witness
instantiations. -/
def stTwo : SMState :=
  { initSM 60 2 75 85 120 "/ws" "/app" with
    sessions := [("a", mkSD 0 0 Option.none), ("b", mkSD 1 1 Option.none)] }

/-- Concrete one-session state for witness instantiations. -/
def stOne : SMState :=
  { initSM 60 10 75 85 120 "/ws" "/app" with
    sessions := [("a", mkSD 0 0 Option.none)] }

/-- Concrete state whose only session is recently active by the clock but
whose heartbeat is 100 minutes stale. -/
def stC2 : SMState :=
  { initSM 60 10 75 85 120 "/ws" "/app" with
    sessions := [("s", mkSD 10000 9900 Option.none)] }

/-- Nine-session state with fresh activity, thresholds 75/85, for the C7
scenario. -/
def stNine : SMState :=
  { initSM 60 10 75 85 120 "/ws" "/app" with
    sessions :=
      [("s0", mkSD 0 0 Option.none), ("s1", mkSD 1 1 Option.none),
       ("s2", mkSD 2 2 Option.none), ("s3", mkSD 3 3 Option.none),
       ("s4", mkSD 4 4 Option.none), ("s5", mkSD 5 5 Option.none),
       ("s6", mkSD 6 6 Option.none), ("s7", mkSD 7 7 Option.none),
       ("s8", mkSD 8 8 Option.none)] }

/-- Concrete SSE state: session "s1" has one queue below capacity and one
full queue; no channel exists for "zz". -/
def sseSt : SSEState :=
  { managers := [("s1",
      { session_id := "s1"
        connections := [{ maxsize := 2, buf := ["old"] }, { maxsize := 1, buf := ["full"] }]
        drop_warnings := 0 })]
    running := true
    total_messages_sent := 5 }

/-- Concrete message for witness instantiations. -/
def msgW : SSEMessage :=
  mkSSEMessage 123 "abcd" "2026-01-01T00:00:00" SSEMessageType.round_start
    [("x", PyVal.enum "round_start"), ("n", PyVal.int 3)] "s1"

def c3root : String := "/proj/workspace/sessions"

def c3evil : String := "/proj/workspace/sessionsEvil"

def c3dotdot : String := "/proj/workspace/sessions/../../../etc"

def stC3 : SMState :=
  { initSM 60 10 75 85 120 c3root "/app" with
    sessions := [("s", mkSD 0 0 (some c3evil))] }

def stC3b : SMState :=
  { initSM 60 10 75 85 120 c3root "/app" with
    sessions := [("s", mkSD 0 0 (some c3dotdot))] }

def fsC3 : String → Bool := fun p => p = c3evil ∨ p = c3dotdot

/-- `ExtOK h0 h`: `h` extends `h0` by appended cells only, every appended
cell lives at a fresh address (at or above `h0.next`, below `h.next`) and
refers only to fresh addresses.  Mutation of fresh cells and allocation
preserve it. -/
def ExtOK (h0 h : Heap) : Prop :=
  h0.next ≤ h.next ∧
  ∃ extra, h.cells = h0.cells ++ extra ∧
    ∀ c ∈ extra, h0.next ≤ c.1 ∧ c.1 < h.next ∧ ∀ b ∈ refsOfObj c.2, h0.next ≤ b

/-- Extension property of deep copy at value level: the heap only grows by
fresh cells and the copied value refers only to fresh addresses. -/
def DeepcopyVExt (fuel : Nat) : Prop :=
  ∀ (h : Heap) (v v1 : HVal) (h1 : Heap), deepcopyV fuel h v = some (v1, h1) →
    ExtOK h h1 ∧ ∀ b ∈ refsOfVal v1, h.next ≤ b ∧ b < h1.next

def DeepcopyEsExt (fuel : Nat) : Prop :=
  ∀ (h : Heap) (es es1 : List (String × HVal)) (h1 : Heap),
    deepcopyEs fuel h es = some (es1, h1) →
    ExtOK h h1 ∧ ∀ b ∈ refsOfObj (.hdict es1), h.next ≤ b ∧ b < h1.next

def DeepcopyXsExt (fuel : Nat) : Prop :=
  ∀ (h : Heap) (xs xs1 : List HVal) (h1 : Heap),
    deepcopyXs fuel h xs = some (xs1, h1) →
    ExtOK h h1 ∧ ∀ b ∈ refsOfObj (.hlist xs1), h.next ≤ b ∧ b < h1.next

def h0c10 : Heap :=
  { cells := [(0, .hdict [("client_ip", .vstr "1.2.3.4"), ("x", .href 1)]),
              (1, .hlist [.vint 5]),
              (2, .hdict [("llm.model", .vstr "m"), ("lst", .href 3)]),
              (3, .hlist [.vstr "q"])],
    next := 4 }

def metaC10 : List (String × HVal) := [("client_ip", .vstr "1.2.3.4")]

def h1c10 : Heap :=
  { cells := [(0, .hdict [("client_ip", .vstr "1.2.3.4"), ("x", .href 1)]),
              (1, .hlist [.vint 5]),
              (2, .hdict [("llm.model", .vstr "m"), ("lst", .href 3)]),
              (3, .hlist [.vstr "q"]),
              (4, .hlist [.vint 5]),
              (5, .hdict [("x", .href 4)]),
              (6, .hlist [.vstr "q"]),
              (7, .hdict [("llm.model", .vstr "m"), ("lst", .href 6),
                          ("x", .href 4)])],
    next := 8 }

section TableLemmas

/-- The keys of the session table are distinct (always true of a Python
dict; maintained by every embedded operation). -/
def KeysNodup (l : List (String × SessionData)) : Prop :=
  (l.map Prod.fst).Nodup

theorem odLookup_isSome_iff_mem {l : List (String × SessionData)} {k : String} :
    (odLookup l k).isSome ↔ k ∈ l.map Prod.fst := by
  induction l with
  | nil => simp [odLookup]
  | cons p t ih =>
      by_cases hp : p.1 = k
      · simp [odLookup, List.find?_cons_of_pos, hp]
      · simp [odLookup, List.find?_cons_of_neg, hp, Ne.symm hp, ← ih]

theorem odLookup_eq_none_of_not_mem {l : List (String × SessionData)} {k : String}
    (h : k ∉ l.map Prod.fst) : odLookup l k = Option.none := by
  have := (not_congr odLookup_isSome_iff_mem).mpr h
  cases hlk : odLookup l k with
  | none => rfl
  | some v => rw [hlk] at this; simp at this

theorem odErase_not_mem {l : List (String × SessionData)} {k : String}
    (h : k ∉ l.map Prod.fst) : odErase l k = l := by
  induction l with
  | nil => rfl
  | cons p t ih =>
      simp only [List.map_cons, List.mem_cons, not_or] at h
      have ht := ih h.2
      simp only [odErase] at ht ⊢
      rw [List.filter_cons_of_pos (by simp [Ne.symm h.1]), ht]

theorem odUpdate_keys (l : List (String × SessionData)) (k : String) (v : SessionData) :
    (odUpdate l k v).map Prod.fst = l.map Prod.fst := by
  induction l with
  | nil => rfl
  | cons p t ih =>
      by_cases hp : p.1 = k
      · simp [odUpdate, hp] at *; simpa [odUpdate] using ih
      · simp [odUpdate, hp] at *; simpa [odUpdate] using ih

theorem odUpdate_length (l : List (String × SessionData)) (k : String) (v : SessionData) :
    (odUpdate l k v).length = l.length := by
  simp [odUpdate]

theorem odErase_odUpdate (l : List (String × SessionData)) (k : String) (v : SessionData) :
    odErase (odUpdate l k v) k = odErase l k := by
  induction l with
  | nil => rfl
  | cons p t ih =>
      by_cases hp : p.1 = k
      · simp [odUpdate, odErase, hp, List.filter_cons] at *
        simpa [odUpdate, odErase] using ih
      · simp [odUpdate, odErase, hp, List.filter_cons] at *
        simpa [odUpdate, odErase] using ih

end TableLemmas


section TableLemmasMore

theorem odLookup_cons (p : String × SessionData) (t : List (String × SessionData))
    (k : String) :
    odLookup (p :: t) k = if p.1 = k then some p.2 else odLookup t k := by
  by_cases h : p.1 = k
  · simp [odLookup, List.find?_cons_of_pos, h]
  · simp [odLookup, List.find?_cons_of_neg, h]

theorem odErase_cons (p : String × SessionData) (t : List (String × SessionData))
    (k : String) :
    odErase (p :: t) k = if p.1 = k then odErase t k else p :: odErase t k := by
  by_cases h : p.1 = k
  · simp [odErase, List.filter_cons, h]
  · simp [odErase, List.filter_cons, h]

theorem odUpdate_cons (p : String × SessionData) (t : List (String × SessionData))
    (k : String) (v : SessionData) :
    odUpdate (p :: t) k v = (if p.1 = k then (k, v) else p) :: odUpdate t k v := by
  simp [odUpdate]

theorem odLookup_odErase_self (l : List (String × SessionData)) (k : String) :
    odLookup (odErase l k) k = Option.none := by
  induction l with
  | nil => rfl
  | cons p t ih =>
      rw [odErase_cons]
      by_cases h : p.1 = k
      · rw [if_pos h]; exact ih
      · rw [if_neg h, odLookup_cons, if_neg h]; exact ih

theorem odLookup_odErase_other {l : List (String × SessionData)} {k k' : String}
    (h : k' ≠ k) : odLookup (odErase l k) k' = odLookup l k' := by
  induction l with
  | nil => rfl
  | cons p t ih =>
      rw [odErase_cons]
      by_cases hp : p.1 = k
      · have hp' : ¬ p.1 = k' := by rw [hp]; exact fun he => h he.symm
        rw [if_pos hp, odLookup_cons, if_neg hp']
        exact ih
      · rw [if_neg hp, odLookup_cons, odLookup_cons]
        by_cases hpk : p.1 = k'
        · rw [if_pos hpk, if_pos hpk]
        · rw [if_neg hpk, if_neg hpk]; exact ih

theorem odErase_length_of_mem {l : List (String × SessionData)} {k : String}
    (hn : KeysNodup l) (hm : k ∈ l.map Prod.fst) :
    (odErase l k).length + 1 = l.length := by
  induction l with
  | nil => simp at hm
  | cons p t ih =>
      simp only [KeysNodup, List.map_cons, List.nodup_cons] at hn
      rw [odErase_cons]
      by_cases hp : p.1 = k
      · rw [if_pos hp]
        have ht : odErase t k = t := odErase_not_mem (by rw [← hp]; exact hn.1)
        rw [ht, List.length_cons]
      · rw [if_neg hp]
        have hm' : k ∈ t.map Prod.fst := by
          rcases List.mem_cons.mp hm with h1 | h2
          · exact absurd h1.symm hp
          · exact h2
        have := ih hn.2 hm'
        simp only [List.length_cons]
        omega

theorem keysNodup_odErase {l : List (String × SessionData)} (k : String)
    (hn : KeysNodup l) : KeysNodup (odErase l k) :=
  ((List.filter_sublist l).map Prod.fst).nodup hn

theorem keysNodup_odUpdate {l : List (String × SessionData)} (k : String)
    (v : SessionData) (hn : KeysNodup l) : KeysNodup (odUpdate l k v) := by
  unfold KeysNodup
  rw [odUpdate_keys]
  exact hn

theorem not_mem_keys_odErase (l : List (String × SessionData)) (k : String) :
    k ∉ (odErase l k).map Prod.fst := by
  intro hmem
  have := odLookup_isSome_iff_mem.mpr hmem
  rw [odLookup_odErase_self] at this
  simp at this

theorem keysNodup_append_new {l : List (String × SessionData)} {k : String}
    {v : SessionData} (hn : KeysNodup l) (hk : k ∉ l.map Prod.fst) :
    KeysNodup (l ++ [(k, v)]) := by
  unfold KeysNodup at *
  rw [List.map_append]
  simp only [List.map_cons, List.map_nil]
  exact List.Nodup.append hn (List.nodup_singleton k)
    (by simpa [List.disjoint_singleton] using hk)

theorem keysNodup_odMoveToEnd {l : List (String × SessionData)} (k : String)
    (hn : KeysNodup l) : KeysNodup (odMoveToEnd l k) := by
  unfold odMoveToEnd
  cases h : odLookup l k with
  | none => exact hn
  | some v =>
      exact keysNodup_append_new (keysNodup_odErase k hn) (not_mem_keys_odErase l k)

theorem odMoveToEnd_length {l : List (String × SessionData)} {k : String}
    (hn : KeysNodup l) : (odMoveToEnd l k).length = l.length := by
  unfold odMoveToEnd
  cases h : odLookup l k with
  | none => rfl
  | some v =>
      have hm : k ∈ l.map Prod.fst := odLookup_isSome_iff_mem.mp (by rw [h]; rfl)
      have := odErase_length_of_mem hn hm
      simp only [List.length_append, List.length_cons, List.length_nil]
      omega

theorem odLookup_odUpdate_self {l : List (String × SessionData)} {k : String}
    (v : SessionData) (h : (odLookup l k).isSome) :
    odLookup (odUpdate l k v) k = some v := by
  induction l with
  | nil => simp [odLookup] at h
  | cons p t ih =>
      rw [odUpdate_cons]
      by_cases hp : p.1 = k
      · rw [if_pos hp, odLookup_cons, if_pos rfl]
      · rw [if_neg hp, odLookup_cons, if_neg hp]
        rw [odLookup_cons, if_neg hp] at h
        exact ih h

theorem odLookup_odUpdate_other {l : List (String × SessionData)} {k k' : String}
    (v : SessionData) (h : k' ≠ k) :
    odLookup (odUpdate l k v) k' = odLookup l k' := by
  induction l with
  | nil => rfl
  | cons p t ih =>
      rw [odUpdate_cons, odLookup_cons, odLookup_cons]
      by_cases hp : p.1 = k
      · have : ¬ k = k' := fun he => h he.symm
        rw [if_pos hp, if_neg (by simpa using this), if_neg (by rw [hp]; simpa using this)]
        exact ih
      · rw [if_neg hp]
        by_cases hpk : p.1 = k'
        · rw [if_pos hpk, if_pos hpk]
        · rw [if_neg hpk, if_neg hpk]; exact ih

theorem find?_odErase_self_eq_none (l : List (String × SessionData)) (k : String) :
    List.find? (fun p => p.1 = k) (odErase l k) = Option.none := by
  have := odLookup_odErase_self l k
  unfold odLookup at this
  cases hf : List.find? (fun p => decide (p.1 = k)) (odErase l k) with
  | none => rfl
  | some x => rw [hf] at this; simp at this

theorem odLookup_odMoveToEnd_self {l : List (String × SessionData)} {k : String}
    {v : SessionData} (h : odLookup l k = some v) :
    odLookup (odMoveToEnd l k) k = some v := by
  unfold odMoveToEnd
  rw [h]
  unfold odLookup
  rw [List.find?_append, find?_odErase_self_eq_none]
  simp [List.find?]

theorem odLookup_odMoveToEnd_other {l : List (String × SessionData)} {k k' : String}
    (h : k' ≠ k) : odLookup (odMoveToEnd l k) k' = odLookup l k' := by
  unfold odMoveToEnd
  cases hl : odLookup l k with
  | none => rfl
  | some v =>
      have he := @odLookup_odErase_other l k k' h
      unfold odLookup at he ⊢
      rw [List.find?_append]
      cases hf : List.find? (fun p => decide (p.1 = k')) (odErase l k) with
      | some x =>
          rw [hf] at he
          simp only [Option.or_some]
          exact he
      | none =>
          rw [hf] at he
          simp only [Option.none_or]
          rw [List.find?_cons_of_neg _ (by simp; exact fun he' => h he'.symm), List.find?_nil]
          exact he

end TableLemmasMore


section DeleteLemmas

theorem cleanupWorkspace_sessions (fs : String → Bool) (p : String) (st : SMState) :
    (cleanupWorkspace fs p st).1.sessions = st.sessions := by
  unfold cleanupWorkspace
  split_ifs
  · rfl
  · dsimp only
    split_ifs <;> rfl

theorem cleanupWorkspace_cfg (fs : String → Bool) (p : String) (st : SMState) :
    smCfg (cleanupWorkspace fs p st).1 = smCfg st := by
  unfold cleanupWorkspace
  split_ifs
  · rfl
  · dsimp only
    split_ifs <;> rfl

theorem cleanupWorkspace_trace_len (fs : String → Bool) (p : String) (st : SMState) :
    (cleanupWorkspace fs p st).2.length ≤ 1 := by
  unfold cleanupWorkspace
  split_ifs
  · simp
  · dsimp only
    split_ifs <;> simp

theorem ctw_sessions (now : Time) (st : SMState) (d : SessionData) :
    (cleanupTaskweaverSessionData now st d).1.sessions = st.sessions := by
  cases htw : d.taskweaver_session with
  | none => simp [cleanupTaskweaverSessionData, htw]
  | some tw =>
      cases hcwd : tw.execution_cwd <;>
        simp [cleanupTaskweaverSessionData, htw, hcwd]

theorem ctw_cfg (now : Time) (st : SMState) (d : SessionData) :
    smCfg (cleanupTaskweaverSessionData now st d).1 = smCfg st := by
  cases htw : d.taskweaver_session with
  | none => simp [cleanupTaskweaverSessionData, htw]
  | some tw =>
      cases hcwd : tw.execution_cwd <;>
        simp [cleanupTaskweaverSessionData, htw, hcwd, smCfg]

end DeleteLemmas

section DeleteLemmasMore

theorem del_fst (fs : String → Bool) (now : Time) (k : String) (st : SMState) :
    (deleteSessionInternal fs now k st).1 = (odLookup st.sessions k).isSome := by
  unfold deleteSessionInternal
  cases hlk : odLookup st.sessions k <;> simp

theorem del_sessions (fs : String → Bool) (now : Time) (k : String) (st : SMState) :
    (deleteSessionInternal fs now k st).2.1.sessions =
      if (odLookup st.sessions k).isSome then odErase st.sessions k
      else st.sessions := by
  unfold deleteSessionInternal
  cases hlk : odLookup st.sessions k with
  | none => simp
  | some d =>
      simp only [Option.isSome_some, if_true]
      cases hwp : (cleanupTaskweaverSessionData now st d).2.workspace_path with
      | none =>
          simp only [hwp]
          rw [show (cleanupTaskweaverSessionData now st d).1.sessions = st.sessions
            from ctw_sessions now st d, odErase_odUpdate]
      | some wp =>
          simp only [hwp]
          rw [cleanupWorkspace_sessions]
          dsimp only
          rw [show (cleanupTaskweaverSessionData now st d).1.sessions = st.sessions
            from ctw_sessions now st d, odErase_odUpdate]

theorem del_cfg (fs : String → Bool) (now : Time) (k : String) (st : SMState) :
    smCfg (deleteSessionInternal fs now k st).2.1 = smCfg st := by
  unfold deleteSessionInternal
  cases hlk : odLookup st.sessions k with
  | none => simp
  | some d =>
      dsimp only
      cases hwp : (cleanupTaskweaverSessionData now st d).2.workspace_path with
      | none =>
          simp only [hwp]
          have h2 := ctw_cfg now st d
          simp only [smCfg, Prod.mk.injEq] at h2 ⊢
          exact h2
      | some wp =>
          simp only [hwp]
          have h1 := cleanupWorkspace_cfg fs wp
            { (cleanupTaskweaverSessionData now st d).1 with
              sessions := odUpdate (cleanupTaskweaverSessionData now st d).1.sessions k
                (cleanupTaskweaverSessionData now st d).2 }
          have h2 := ctw_cfg now st d
          simp only [smCfg, Prod.mk.injEq] at h1 h2 ⊢
          simp_all

theorem del_trace_len (fs : String → Bool) (now : Time) (k : String) (st : SMState) :
    (deleteSessionInternal fs now k st).2.2.length ≤ 1 := by
  unfold deleteSessionInternal
  cases hlk : odLookup st.sessions k with
  | none => simp
  | some d =>
      dsimp only
      cases hwp : (cleanupTaskweaverSessionData now st d).2.workspace_path with
      | none => simp [hwp]
      | some wp =>
          simp only [hwp]
          exact cleanupWorkspace_trace_len fs wp _

end DeleteLemmasMore

section DeleteIdsLemmas

theorem mem_keys_odErase_of_ne {l : List (String × SessionData)} {k k' : String}
    (h : k' ≠ k) : k' ∈ (odErase l k).map Prod.fst ↔ k' ∈ l.map Prod.fst := by
  rw [← odLookup_isSome_iff_mem, ← odLookup_isSome_iff_mem, odLookup_odErase_other h]

theorem filter_erase_combine (l : List (String × SessionData)) (id : String)
    (rest : List String) :
    (odErase l id).filter (fun p => p.1 ∉ rest) =
      l.filter (fun p => p.1 ∉ id :: rest) := by
  show (List.filter _ (List.filter _ l)) = _
  rw [List.filter_filter]
  apply List.filter_congr
  intro p _
  by_cases h1 : p.1 = id
  · simp [h1]
  · by_cases h2 : p.1 ∈ rest <;> simp [h1, h2]

theorem deleteIds_spec (fs : String → Bool) (now : Time) :
    ∀ (ids : List String) (st : SMState),
    KeysNodup st.sessions → ids.Nodup →
    (∀ i ∈ ids, i ∈ st.sessions.map Prod.fst) →
    (deleteIds fs now ids st).1 = ids.length ∧
    (deleteIds fs now ids st).2.1.sessions =
      st.sessions.filter (fun p => p.1 ∉ ids) ∧
    smCfg (deleteIds fs now ids st).2.1 = smCfg st := by
  intro ids
  induction ids with
  | nil =>
      intro st hn _ _
      refine ⟨rfl, ?_, rfl⟩
      simp [deleteIds]
  | cons id rest ih =>
      intro st hn hids hmem
      have hhead : id ∈ st.sessions.map Prod.fst := hmem id (List.mem_cons_self id rest)
      have hsome : (odLookup st.sessions id).isSome := odLookup_isSome_iff_mem.mpr hhead
      have hr1 : (deleteSessionInternal fs now id st).1 = true := by
        rw [del_fst, hsome]
      have hsess1 : (deleteSessionInternal fs now id st).2.1.sessions =
          odErase st.sessions id := by
        rw [del_sessions, if_pos hsome]
      have hnodup_rest : rest.Nodup := (List.nodup_cons.mp hids).2
      have hid_notin : id ∉ rest := (List.nodup_cons.mp hids).1
      have hn1 : KeysNodup (deleteSessionInternal fs now id st).2.1.sessions := by
        rw [hsess1]; exact keysNodup_odErase id hn
      have hmem1 : ∀ i ∈ rest, i ∈ (deleteSessionInternal fs now id st).2.1.sessions.map Prod.fst := by
        intro i hi
        rw [hsess1]
        have hine : i ≠ id := fun he => hid_notin (he ▸ hi)
        exact (mem_keys_odErase_of_ne hine).mpr (hmem i (List.mem_cons_of_mem id hi))
      obtain ⟨hc, hs, hcfg⟩ := ih (deleteSessionInternal fs now id st).2.1 hn1 hnodup_rest hmem1
      refine ⟨?_, ?_, ?_⟩
      · show (if (deleteSessionInternal fs now id st).1 then 1 else 0) +
          (deleteIds fs now rest (deleteSessionInternal fs now id st).2.1).1 = _
        rw [hr1, hc]
        simp [Nat.add_comm]
      · show (deleteIds fs now rest (deleteSessionInternal fs now id st).2.1).2.1.sessions = _
        rw [hs, hsess1, filter_erase_combine]
      · show smCfg (deleteIds fs now rest (deleteSessionInternal fs now id st).2.1).2.1 = smCfg st
        rw [hcfg, del_cfg]

end DeleteIdsLemmas

section LruEnforceLemmas

theorem filter_not_mem_length :
    ∀ (S : List String) (l : List (String × SessionData)),
    KeysNodup l → S.Nodup → (∀ i ∈ S, i ∈ l.map Prod.fst) →
    (l.filter (fun p => p.1 ∉ S)).length = l.length - S.length := by
  intro S
  induction S with
  | nil => intro l _ _ _; simp
  | cons i S' ih =>
      intro l hn hS hmem
      have hS' : S'.Nodup := (List.nodup_cons.mp hS).2
      have hmem_i : i ∈ l.map Prod.fst := hmem i (List.mem_cons_self i S')
      have hrec := ih (odErase l i) (keysNodup_odErase i hn) hS'
        (fun j hj => by
          have hji : j ≠ i := fun he => (List.nodup_cons.mp hS).1 (he ▸ hj)
          exact (mem_keys_odErase_of_ne hji).mpr (hmem j (List.mem_cons_of_mem i hj)))
      rw [← filter_erase_combine] at *
      rw [hrec]
      have := odErase_length_of_mem hn hmem_i
      simp only [List.length_cons]
      omega

theorem filter_not_mem_take_eq_drop :
    ∀ (l : List (String × SessionData)) (n : Nat), KeysNodup l →
    l.filter (fun p => p.1 ∉ (l.map Prod.fst).take n) = l.drop n := by
  intro l
  induction l with
  | nil => intro n _; simp
  | cons p t ih =>
      intro n hn
      cases n with
      | zero => simp
      | succ m =>
          simp only [KeysNodup, List.map_cons, List.nodup_cons] at hn
          rw [List.map_cons, List.take_succ_cons, List.drop_succ_cons]
          rw [List.filter_cons_of_neg (by simp)]
          rw [show (t.filter (fun q => q.1 ∉ p.1 :: (t.map Prod.fst).take m)) =
              t.filter (fun q => q.1 ∉ (t.map Prod.fst).take m) from ?_, ih m hn.2]
          apply List.filter_congr
          intro q hq
          have hqp : q.1 ≠ p.1 := by
            intro he
            exact hn.1 (he ▸ List.mem_map_of_mem Prod.fst hq)
          by_cases h2 : q.1 ∈ (t.map Prod.fst).take m <;> simp [hqp, h2]

theorem deleteIds_cfg (fs : String → Bool) (now : Time) :
    ∀ (ids : List String) (st : SMState),
    smCfg (deleteIds fs now ids st).2.1 = smCfg st := by
  intro ids
  induction ids with
  | nil => intro st; rfl
  | cons id rest ih =>
      intro st
      show smCfg (deleteIds fs now rest (deleteSessionInternal fs now id st).2.1).2.1 = smCfg st
      rw [ih, del_cfg]

theorem cleanupLru_skip (fs : String → Bool) (now : Time) (count : Nat) (st : SMState)
    (h : st.sessions.length ≤ count) :
    cleanupLruSessions fs now count st = (0, st, []) := by
  unfold cleanupLruSessions
  rw [if_pos h]

theorem cleanupLru_evict (fs : String → Bool) (now : Time) (count : Nat) (st : SMState)
    (hn : KeysNodup st.sessions) (h : count < st.sessions.length) :
    (cleanupLruSessions fs now count st).2.1.sessions = st.sessions.drop count ∧
    (cleanupLruSessions fs now count st).1 = count ∧
    smCfg (cleanupLruSessions fs now count st).2.1 = smCfg st := by
  unfold cleanupLruSessions
  rw [if_neg (by omega)]
  have hidsnodup : ((odKeys st.sessions).take count).Nodup :=
    ((List.take_sublist count _).nodup hn)
  have hidsmem : ∀ i ∈ (odKeys st.sessions).take count, i ∈ st.sessions.map Prod.fst :=
    fun i hi => List.take_subset count _ hi
  obtain ⟨hc, hs, hcfg⟩ := deleteIds_spec fs now ((odKeys st.sessions).take count) st hn
    hidsnodup hidsmem
  refine ⟨?_, ?_, hcfg⟩
  · rw [hs]
    exact filter_not_mem_take_eq_drop st.sessions count hn
  · rw [hc, List.length_take]
    simp only [odKeys, List.length_map]
    omega

theorem cleanupLru_cfg (fs : String → Bool) (now : Time) (count : Nat) (st : SMState) :
    smCfg (cleanupLruSessions fs now count st).2.1 = smCfg st := by
  unfold cleanupLruSessions
  split_ifs
  · rfl
  · exact deleteIds_cfg fs now _ st

theorem enforce_noop (fs : String → Bool) (now : Time) (st : SMState)
    (h : st.sessions.length < st.max_sessions) :
    enforceSessionLimit fs now st = (st, []) := by
  unfold enforceSessionLimit
  rw [if_neg (by omega)]

theorem enforce_evict (fs : String → Bool) (now : Time) (st : SMState)
    (hn : KeysNodup st.sessions) (hmax : 2 ≤ st.max_sessions)
    (hlen : st.max_sessions ≤ st.sessions.length) :
    (enforceSessionLimit fs now st).1.sessions =
      st.sessions.drop (st.sessions.length - st.max_sessions + 1) := by
  unfold enforceSessionLimit
  rw [if_pos hlen]
  exact (cleanupLru_evict fs now _ st hn (by omega)).1

theorem enforce_cfg (fs : String → Bool) (now : Time) (st : SMState) :
    smCfg (enforceSessionLimit fs now st).1 = smCfg st := by
  unfold enforceSessionLimit
  split_ifs
  · exact cleanupLru_cfg fs now _ st
  · rfl

theorem keysNodup_drop (l : List (String × SessionData)) (n : Nat)
    (hn : KeysNodup l) : KeysNodup (l.drop n) :=
  ((List.drop_sublist n l).map Prod.fst).nodup hn

theorem enforce_nodup (fs : String → Bool) (now : Time) (st : SMState)
    (hn : KeysNodup st.sessions) :
    KeysNodup (enforceSessionLimit fs now st).1.sessions := by
  unfold enforceSessionLimit
  split_ifs with h
  · unfold cleanupLruSessions
    dsimp only
    split_ifs with h2
    · exact hn
    · obtain ⟨_, hs, _⟩ := deleteIds_spec fs now
        ((odKeys st.sessions).take (st.sessions.length - st.max_sessions + 1)) st hn
        ((List.take_sublist _ _).nodup hn)
        (fun i hi => List.take_subset _ _ hi)
      show KeysNodup (deleteIds fs now
        ((odKeys st.sessions).take (st.sessions.length - st.max_sessions + 1)) st).2.1.sessions
      rw [hs]
      rw [show odKeys st.sessions = st.sessions.map Prod.fst from rfl,
        filter_not_mem_take_eq_drop st.sessions _ hn]
      exact keysNodup_drop _ _ hn
  · exact hn

end LruEnforceLemmas

section CreateLemmas

theorem createSession_ret (fs : String → Bool) (now : Time) (conv id : String)
    (cfg : Option (List (String × PyVal))) (st : SMState) :
    (createSession fs now conv id cfg st).1 = id := by
  unfold createSession
  cases hlk : odLookup (enforceSessionLimit fs now st).1.sessions id <;> simp [hlk]

theorem createSession_touch {fs : String → Bool} {now : Time} {conv id : String}
    {cfg : Option (List (String × PyVal))} {st : SMState} {d : SessionData}
    (hlk : odLookup (enforceSessionLimit fs now st).1.sessions id = some d) :
    (createSession fs now conv id cfg st).2.1.sessions =
      odUpdate (odMoveToEnd (enforceSessionLimit fs now st).1.sessions id) id
        { d with last_activity := now } ∧
    (createSession fs now conv id cfg st).2.2 = (enforceSessionLimit fs now st).2 := by
  unfold createSession
  simp only [hlk]
  refine ⟨?_, ?_⟩ <;> first | rfl | trivial

theorem createSession_new {fs : String → Bool} {now : Time} {conv id : String}
    {cfg : Option (List (String × PyVal))} {st : SMState}
    (hlk : odLookup (enforceSessionLimit fs now st).1.sessions id = Option.none) :
    ∃ x : SessionData, (createSession fs now conv id cfg st).2.1.sessions =
      (enforceSessionLimit fs now st).1.sessions ++ [(id, x)] := by
  unfold createSession
  simp only [hlk]
  exact ⟨_, rfl⟩

theorem createSession_cfg (fs : String → Bool) (now : Time) (conv id : String)
    (cfg : Option (List (String × PyVal))) (st : SMState) :
    smCfg (createSession fs now conv id cfg st).2.1 = smCfg st := by
  unfold createSession
  cases hlk : odLookup (enforceSessionLimit fs now st).1.sessions id with
  | some d =>
      simp only [hlk]
      have := enforce_cfg fs now st
      simp only [smCfg, Prod.mk.injEq] at this ⊢
      exact this
  | none =>
      simp only [hlk]
      have := enforce_cfg fs now st
      simp only [smCfg, Prod.mk.injEq] at this ⊢
      exact this

theorem enforce_len (fs : String → Bool) (now : Time) (st : SMState)
    (hn : KeysNodup st.sessions) (hmax : 2 ≤ st.max_sessions)
    (hlen : st.sessions.length ≤ st.max_sessions) :
    (enforceSessionLimit fs now st).1.sessions.length < st.max_sessions := by
  by_cases h : st.sessions.length < st.max_sessions
  · rw [enforce_noop fs now st h]
    exact h
  · have heq : st.sessions.length = st.max_sessions := by omega
    rw [enforce_evict fs now st hn hmax (by omega), List.length_drop]
    omega

theorem createSession_inv (fs : String → Bool) (now : Time) (conv id : String)
    (cfg : Option (List (String × PyVal))) (st : SMState)
    (hn : KeysNodup st.sessions) (hmax : 2 ≤ st.max_sessions)
    (hlen : st.sessions.length ≤ st.max_sessions) :
    KeysNodup (createSession fs now conv id cfg st).2.1.sessions ∧
    (createSession fs now conv id cfg st).2.1.sessions.length ≤ st.max_sessions := by
  have hn1 : KeysNodup (enforceSessionLimit fs now st).1.sessions :=
    enforce_nodup fs now st hn
  have hlen1 : (enforceSessionLimit fs now st).1.sessions.length < st.max_sessions :=
    enforce_len fs now st hn hmax hlen
  cases hlk : odLookup (enforceSessionLimit fs now st).1.sessions id with
  | some d =>
      obtain ⟨hs, _⟩ := createSession_touch hlk
      constructor
      · rw [hs]
        exact keysNodup_odUpdate id _ (keysNodup_odMoveToEnd id hn1)
      · rw [hs, odUpdate_length, odMoveToEnd_length hn1]
        omega
  | none =>
      obtain ⟨x, hs⟩ := createSession_new hlk
      have hnotmem : id ∉ (enforceSessionLimit fs now st).1.sessions.map Prod.fst := by
        intro hmem
        have := odLookup_isSome_iff_mem.mpr hmem
        rw [hlk] at this
        simp at this
      constructor
      · rw [hs]
        exact keysNodup_append_new hn1 hnotmem
      · rw [hs, List.length_append]
        simp only [List.length_cons, List.length_nil]
        omega

theorem runCreates_inv (fs : String → Bool) :
    ∀ (calls : List CreateCall) (st : SMState),
    KeysNodup st.sessions → 2 ≤ st.max_sessions →
    st.sessions.length ≤ st.max_sessions →
    KeysNodup (runCreates fs calls st).sessions ∧
    (runCreates fs calls st).sessions.length ≤ st.max_sessions ∧
    (runCreates fs calls st).max_sessions = st.max_sessions := by
  intro calls
  induction calls with
  | nil => intro st hn hmax hlen; exact ⟨hn, hlen, rfl⟩
  | cons c rest ih =>
      intro st hn hmax hlen
      have hstep := createSession_inv fs c.1 c.2.1 c.2.2.1 c.2.2.2 st hn hmax hlen
      have hcfg := createSession_cfg fs c.1 c.2.1 c.2.2.1 c.2.2.2 st
      have hmaxeq : (createSession fs c.1 c.2.1 c.2.2.1 c.2.2.2 st).2.1.max_sessions =
          st.max_sessions := by
        simpa [smCfg, Prod.mk.injEq] using congrArg (fun t => t.2.1) hcfg
      have := ih (createSession fs c.1 c.2.1 c.2.2.1 c.2.2.2 st).2.1
        hstep.1 (by omega) (by omega)
      have hrw : runCreates fs (c :: rest) st =
          runCreates fs rest (createSession fs c.1 c.2.1 c.2.2.1 c.2.2.2 st).2.1 := rfl
      rw [hrw]
      exact ⟨this.1, by omega, by omega⟩

end CreateLemmas

section ClaimC1

/-- C1, counterexample: with `max_sessions = 1`, two `create_session` calls
leave 2 records in the table — the claimed bound "never exceeds M" fails,
because `_cleanup_lru_sessions` refuses to evict when the table holds at
most `excess+1` sessions. -/
theorem c1_capacity_violated_at_max_one :
    (initSM 60 1 75 85 120 "/ws" "/app").max_sessions = 1 ∧
    (runCreates (fun _ => false)
      [((0 : Time), "c1", "a", Option.none), ((1 : Time), "c2", "b", Option.none)]
      (initSM 60 1 75 85 120 "/ws" "/app")).sessions.length = 2 :=
  ⟨rfl, rfl⟩

/-- C1 (amended): provided `max_sessions ≥ 2`, for every sequence of
`create_session` calls on a freshly constructed manager the table size
never exceeds `max_sessions`; and whenever the capacity-enforcement step
evicts, the evicted sessions are exactly the first `excess+1` entries of
the LRU order at that moment (the survivors are the remaining LRU
suffix). -/
theorem c1_capacity_invariant_amended :
    (∀ (fs : String → Bool) (calls : List CreateCall) (ci M : Nat) (mt ft : Rat)
       (stm : Nat) (wb cwd : String), 2 ≤ M →
       (runCreates fs calls (initSM ci M mt ft stm wb cwd)).sessions.length ≤ M)
    ∧
    (∀ (fs : String → Bool) (now : Time) (st : SMState), KeysNodup st.sessions →
       2 ≤ st.max_sessions → st.max_sessions ≤ st.sessions.length →
       (enforceSessionLimit fs now st).1.sessions =
         st.sessions.drop (st.sessions.length - st.max_sessions + 1)) := by
  constructor
  · intro fs calls ci M mt ft stm wb cwd hM
    have := runCreates_inv fs calls (initSM ci M mt ft stm wb cwd)
      (by simp [initSM, KeysNodup]) hM (by simp [initSM])
    exact this.2.1
  · intro fs now st hn hmax hlen
    exact enforce_evict fs now st hn hmax hlen

theorem c1_capacity_invariant_amended_witness :
    (runCreates (fun _ => false)
      [((0 : Time), "c1", "a", Option.none), ((1 : Time), "c2", "b", Option.none),
       ((2 : Time), "c3", "c", Option.none)]
      (initSM 60 2 75 85 120 "/ws" "/app")).sessions.length ≤ 2 ∧
    (enforceSessionLimit (fun _ => false) 3 stTwo).1.sessions =
      stTwo.sessions.drop (stTwo.sessions.length - stTwo.max_sessions + 1) :=
  ⟨c1_capacity_invariant_amended.1 (fun _ => false) _ 60 2 75 85 120 "/ws" "/app"
      (by norm_num),
   c1_capacity_invariant_amended.2 (fun _ => false) 3 stTwo
      (by show (stTwo.sessions.map Prod.fst).Nodup; decide)
      (by norm_num [stTwo, initSM]) (by norm_num [stTwo, initSM])⟩

end ClaimC1

section ClaimC5

theorem del_absent {fs : String → Bool} {now : Time} {k : String} {st : SMState}
    (h : odLookup st.sessions k = Option.none) :
    deleteSessionInternal fs now k st = (false, st, []) := by
  unfold deleteSessionInternal
  simp only [h]

theorem odLookup_after_delete (fs : String → Bool) (now : Time) (k : String)
    (st : SMState) :
    odLookup (deleteSessionInternal fs now k st).2.1.sessions k = Option.none := by
  rw [del_sessions]
  cases h : odLookup st.sessions k with
  | none => simpa using h
  | some d => simp [odLookup_odErase_self]

/-- C5: `delete_session` is idempotent.  The first call returns true exactly
when the id is in the table, removes at most one workspace directory, and
the second call (with no intervening create) returns false and removes
nothing. -/
theorem c5_delete_idempotent (fs fs2 : String → Bool) (t1 t2 : Time)
    (id : String) (st : SMState) :
    (deleteSession fs t1 id st).1 = (odLookup st.sessions id).isSome ∧
    (deleteSession fs t1 id st).2.2.length ≤ 1 ∧
    (deleteSession fs2 t2 id (deleteSession fs t1 id st).2.1).1 = false ∧
    (deleteSession fs2 t2 id (deleteSession fs t1 id st).2.1).2.2 = [] := by
  have habs : odLookup (deleteSession fs t1 id st).2.1.sessions id = Option.none :=
    odLookup_after_delete fs t1 id st
  refine ⟨del_fst fs t1 id st, del_trace_len fs t1 id st, ?_, ?_⟩
  · show (deleteSessionInternal fs2 t2 id _).1 = false
    rw [del_absent habs]
  · show (deleteSessionInternal fs2 t2 id _).2.2 = []
    rw [del_absent habs]

end ClaimC5

section ClaimC9

/-- C9: `update_heartbeat` on a present id returns true and refreshes both
timestamps, so a subsequent `get_session` observes strictly larger
`last_activity` and `last_heartbeat` (provided the clock advanced); on an
absent id it returns false and leaves the state unchanged. -/
theorem c9_heartbeat_refresh :
    (∀ (st : SMState) (id : String) (d : SessionData) (t1 t2 : Time),
      odLookup st.sessions id = some d →
      d.last_activity < t1 → d.last_heartbeat < t1 → t1 ≤ t2 →
      (updateHeartbeat t1 id st).1 = true ∧
      ∃ r, (getSession t2 id (updateHeartbeat t1 id st).2).1 = some r ∧
        d.last_activity < r.last_activity ∧ d.last_heartbeat < r.last_heartbeat)
    ∧
    (∀ (st : SMState) (id : String) (t : Time),
      odLookup st.sessions id = Option.none →
      updateHeartbeat t id st = (false, st)) := by
  constructor
  · intro st id d t1 t2 hd hact hhb ht
    have hfst : (updateHeartbeat t1 id st).1 = true := by
      unfold updateHeartbeat
      simp only [hd]
    have hsess : (updateHeartbeat t1 id st).2.sessions =
        odMoveToEnd (odUpdate st.sessions id
          { d with last_heartbeat := t1, last_activity := t1 }) id := by
      unfold updateHeartbeat
      simp only [hd]
    have hlk2 : odLookup (updateHeartbeat t1 id st).2.sessions id =
        some { d with last_heartbeat := t1, last_activity := t1 } := by
      rw [hsess]
      exact odLookup_odMoveToEnd_self
        (odLookup_odUpdate_self _ (by rw [hd]; rfl))
    refine ⟨hfst, ⟨{ { d with last_heartbeat := t1, last_activity := t1 }
      with last_activity := t2 }, ?_, ?_, ?_⟩⟩
    · unfold getSession
      simp only [hlk2]
    · show d.last_activity < t2
      exact lt_of_lt_of_le hact ht
    · show d.last_heartbeat < t1
      exact hhb
  · intro st id t h
    unfold updateHeartbeat
    simp only [h]

theorem c9_heartbeat_refresh_witness :
    (updateHeartbeat 1 "a" stOne).1 = true ∧
    updateHeartbeat 5 "zz" stOne = (false, stOne) :=
  ⟨(c9_heartbeat_refresh.1 stOne "a" (mkSD 0 0 Option.none) 1 2 rfl
      (by decide) (by decide) (by decide)).1,
   c9_heartbeat_refresh.2 stOne "zz" 5 rfl⟩

end ClaimC9

section ClaimC8

theorem createSession_touch_fields {fs : String → Bool} {now : Time}
    {conv id : String} {cfg : Option (List (String × PyVal))} {st : SMState}
    {d : SessionData}
    (hlk : odLookup (enforceSessionLimit fs now st).1.sessions id = some d) :
    (createSession fs now conv id cfg st).2.1.conversation_ids =
      (enforceSessionLimit fs now st).1.conversation_ids ∧
    (createSession fs now conv id cfg st).2.1.total_created =
      (enforceSessionLimit fs now st).1.total_created := by
  unfold createSession
  simp only [hlk]
  refine ⟨?_, ?_⟩ <;> first | rfl | trivial

/-- C8, counterexample: with the table at capacity (`max_sessions = 2`,
two records), `create_session` on the already-present id `"b"` first runs
the capacity enforcement, which evicts the LRU session `"a"` — the table
shrinks from 2 records to 1, contradicting "leaves the table size
unchanged". -/
theorem c8_touch_at_capacity_changes_table :
    (odLookup stTwo.sessions "b").isSome = true ∧
    stTwo.sessions.length = 2 ∧
    (createSession (fun _ => false) 2 "c3" "b" Option.none stTwo).2.1.sessions.length = 1 :=
  ⟨rfl, rfl, rfl⟩

/-- C8 (amended): when the table is strictly below capacity (so the
capacity-enforcement step is a no-op), `create_session` on an id already
present is an idempotent touch: it returns the id, evicts nothing and
deletes no workspace, refreshes the record's `last_activity` while keeping
its other fields, leaves every other record and the table size unchanged,
moves the record to the most-recently-used end, and does not touch the
conversation map or the created counter. -/
theorem c8_touch_below_capacity_amended (fs : String → Bool) (now : Time)
    (conv id : String) (cfg : Option (List (String × PyVal))) (st : SMState)
    (d : SessionData) (hn : KeysNodup st.sessions)
    (hd : odLookup st.sessions id = some d)
    (hlen : st.sessions.length < st.max_sessions) :
    (createSession fs now conv id cfg st).1 = id ∧
    (createSession fs now conv id cfg st).2.2 = [] ∧
    odLookup (createSession fs now conv id cfg st).2.1.sessions id =
      some { d with last_activity := now } ∧
    (∀ k, k ≠ id → odLookup (createSession fs now conv id cfg st).2.1.sessions k =
      odLookup st.sessions k) ∧
    (createSession fs now conv id cfg st).2.1.sessions.length = st.sessions.length ∧
    (odKeys (createSession fs now conv id cfg st).2.1.sessions).getLast? = some id ∧
    (createSession fs now conv id cfg st).2.1.conversation_ids = st.conversation_ids ∧
    (createSession fs now conv id cfg st).2.1.total_created = st.total_created := by
  have henf : enforceSessionLimit fs now st = (st, []) := enforce_noop fs now st hlen
  have henf1 : (enforceSessionLimit fs now st).1 = st := by rw [henf]
  have hlk : odLookup (enforceSessionLimit fs now st).1.sessions id = some d := by
    rw [henf1]; exact hd
  obtain ⟨hs, htr⟩ := @createSession_touch fs now conv id cfg st d hlk
  rw [henf1] at hs
  have hme : odMoveToEnd st.sessions id = odErase st.sessions id ++ [(id, d)] := by
    unfold odMoveToEnd; rw [hd]
  obtain ⟨hconv, htot⟩ := @createSession_touch_fields fs now conv id cfg st d hlk
  refine ⟨createSession_ret fs now conv id cfg st, ?_, ?_, ?_, ?_, ?_, ?_, ?_⟩
  · rw [htr, henf]
  · rw [hs]
    exact odLookup_odUpdate_self _
      (by rw [odLookup_odMoveToEnd_self hd]; rfl)
  · intro k hk
    rw [hs, odLookup_odUpdate_other _ hk, odLookup_odMoveToEnd_other hk]
  · rw [hs, odUpdate_length, odMoveToEnd_length hn]
  · rw [hs]
    unfold odKeys
    rw [odUpdate_keys, hme, List.map_append]
    simp
  · rw [hconv, henf1]
  · rw [htot, henf1]

theorem c8_touch_below_capacity_amended_witness :
    (createSession (fun _ => false) 7 "c9" "a" Option.none stOne).1 = "a" ∧
    (createSession (fun _ => false) 7 "c9" "a" Option.none stOne).2.1.sessions.length =
      stOne.sessions.length :=
  ⟨(c8_touch_below_capacity_amended (fun _ => false) 7 "c9" "a" Option.none stOne
      (mkSD 0 0 Option.none) (by show (stOne.sessions.map Prod.fst).Nodup; decide)
      rfl (by norm_num [stOne, initSM])).1,
   (c8_touch_below_capacity_amended (fun _ => false) 7 "c9" "a" Option.none stOne
      (mkSD 0 0 Option.none) (by show (stOne.sessions.map Prod.fst).Nodup; decide)
      rfl (by norm_num [stOne, initSM])).2.2.2.2.1⟩

end ClaimC8

section ClaimC2

theorem eq_of_mem_keysNodup {l : List (String × SessionData)}
    {p q : String × SessionData} (hn : KeysNodup l) (hp : p ∈ l) (hq : q ∈ l)
    (h : p.1 = q.1) : p = q := by
  induction l with
  | nil => simp at hp
  | cons a t ih =>
      simp only [KeysNodup, List.map_cons, List.nodup_cons] at hn
      rcases List.mem_cons.mp hp with hp1 | hp2 <;>
        rcases List.mem_cons.mp hq with hq1 | hq2
      · rw [hp1, hq1]
      · exfalso
        apply hn.1
        rw [← hp1, h]
        exact List.mem_map_of_mem Prod.fst hq2
      · exfalso
        apply hn.1
        rw [← hq1, ← h]
        exact List.mem_map_of_mem Prod.fst hp2
      · exact ih hn.2 hp2 hq2

theorem mem_keys_filter_iff {l : List (String × SessionData)}
    (hn : KeysNodup l) (pred : (String × SessionData) → Bool)
    {p : String × SessionData} (hp : p ∈ l) :
    p.1 ∈ (l.filter pred).map Prod.fst ↔ pred p = true := by
  constructor
  · intro hmem
    obtain ⟨q, hq, hq1⟩ := List.mem_map.mp hmem
    obtain ⟨hql, hqp⟩ := List.mem_filter.mp hq
    rw [eq_of_mem_keysNodup hn hp hql hq1.symm]
    exact hqp
  · intro h
    exact List.mem_map_of_mem Prod.fst (List.mem_filter.mpr ⟨hp, h⟩)

/-- C2 (amended): `cleanup_inactive_sessions(m)` deletes exactly the
records whose `last_activity` is older than `now - m` and returns how many
it deleted; `last_heartbeat` plays no role. -/
theorem c2_cleanup_inactive_amended (fs : String → Bool) (now : Time) (m : Nat)
    (st : SMState) (hn : KeysNodup st.sessions) :
    (cleanupInactiveSessions fs now m st).1 =
      (st.sessions.filter (fun p => p.2.last_activity < now - (m : Int))).length ∧
    (cleanupInactiveSessions fs now m st).2.1.sessions =
      st.sessions.filter (fun p => ¬ p.2.last_activity < now - (m : Int)) := by
  have hsub : ((st.sessions.filter
      (fun p => p.2.last_activity < now - (m : Int))).map Prod.fst).Sublist
      (st.sessions.map Prod.fst) := (List.filter_sublist _).map Prod.fst
  have hids_nodup : ((st.sessions.filter
      (fun p => p.2.last_activity < now - (m : Int))).map Prod.fst).Nodup :=
    hsub.nodup hn
  have hids_mem : ∀ i ∈ (st.sessions.filter
      (fun p => p.2.last_activity < now - (m : Int))).map Prod.fst,
      i ∈ st.sessions.map Prod.fst := fun i hi => hsub.mem hi
  obtain ⟨hc, hs, _⟩ := deleteIds_spec fs now _ st hn hids_nodup hids_mem
  constructor
  · show (deleteIds fs now ((st.sessions.filter
      (fun p => p.2.last_activity < now - (m : Int))).map Prod.fst) st).1 = _
    rw [hc, List.length_map]
  · show (deleteIds fs now ((st.sessions.filter
      (fun p => p.2.last_activity < now - (m : Int))).map Prod.fst) st).2.1.sessions = _
    rw [hs]
    apply List.filter_congr
    intro p hp
    have := mem_keys_filter_iff hn
      (fun p => p.2.last_activity < now - (m : Int)) hp
    by_cases hpred : p.2.last_activity < now - (m : Int)
    · simp only [decide_not]
      have hmem : p.1 ∈ (st.sessions.filter
          (fun p => p.2.last_activity < now - (m : Int))).map Prod.fst :=
        this.mpr (by simpa using hpred)
      simp [hmem, hpred]
    · have hmem : p.1 ∉ (st.sessions.filter
          (fun p => p.2.last_activity < now - (m : Int))).map Prod.fst := by
        intro hc2
        exact hpred (by simpa using this.mp hc2)
      simp [hmem, hpred]

/-- C2, counterexample: the session's `last_heartbeat` is 100 minutes old —
far beyond the spec's short heartbeat-loss threshold (~2 minutes) — and its
`last_activity` is fresh, so the claim predicts deletion; the code deletes
nothing and returns 0. -/
theorem c2_heartbeat_not_considered :
    ((10000 : Time) - (mkSD 10000 9900 Option.none).last_heartbeat = 100 ∧
      (2 : Int) < 100) ∧
    (cleanupInactiveSessions (fun _ => false) 10000 60 stC2).1 = 0 ∧
    odLookup (cleanupInactiveSessions (fun _ => false) 10000 60 stC2).2.1.sessions "s" =
      some (mkSD 10000 9900 Option.none) :=
  ⟨⟨rfl, by norm_num⟩, rfl, rfl⟩

theorem c2_cleanup_inactive_amended_witness :
    (cleanupInactiveSessions (fun _ => false) 10000 60 stC2).1 =
      (stC2.sessions.filter
        (fun p => p.2.last_activity < 10000 - ((60 : Nat) : Int))).length :=
  (c2_cleanup_inactive_amended (fun _ => false) 10000 60 stC2
    (by show (stC2.sessions.map Prod.fst).Nodup; decide)).1

end ClaimC2

section ClaimC7

theorem insertByActivity_perm (x : String × SessionData) :
    ∀ l : List (String × SessionData), (insertByActivity x l).Perm (x :: l) := by
  intro l
  induction l with
  | nil => exact List.Perm.refl _
  | cons y ys ih =>
      unfold insertByActivity
      split_ifs
      · exact List.Perm.refl _
      · exact (ih.cons y).trans (List.Perm.swap x y ys)

theorem sortByActivity_perm (l : List (String × SessionData)) :
    (sortByActivity l).Perm l := by
  induction l with
  | nil => exact List.Perm.refl _
  | cons p t ih =>
      show (insertByActivity p (sortByActivity t)).Perm (p :: t)
      exact (insertByActivity_perm p (sortByActivity t)).trans (ih.cons p)

theorem forceLoop_spec (fs : String → Bool) (now : Time) (target : Nat) :
    ∀ (ids : List String) (st : SMState),
    KeysNodup st.sessions → ids.Nodup →
    (∀ i ∈ ids, i ∈ st.sessions.map Prod.fst) →
    (forceLoop fs now target ids st).2.1.sessions =
      st.sessions.filter (fun p => p.1 ∉ ids.take (st.sessions.length - target)) ∧
    smCfg (forceLoop fs now target ids st).2.1 = smCfg st := by
  intro ids
  induction ids with
  | nil =>
      intro st hn _ _
      constructor
      · simp [forceLoop]
      · rfl
  | cons id rest ih =>
      intro st hn hids hmem
      by_cases hle : st.sessions.length ≤ target
      · have hloop : forceLoop fs now target (id :: rest) st = (0, st, []) := by
          unfold forceLoop
          rw [if_pos hle]
        have htake : st.sessions.length - target = 0 := by omega
        refine ⟨?_, ?_⟩
        · rw [hloop, htake]
          simp
        · rw [hloop]
      · have hloop : forceLoop fs now target (id :: rest) st =
            ((if (deleteSessionInternal fs now id st).1 then 1 else 0) +
              (forceLoop fs now target rest (deleteSessionInternal fs now id st).2.1).1,
             (forceLoop fs now target rest (deleteSessionInternal fs now id st).2.1).2.1,
             (deleteSessionInternal fs now id st).2.2 ++
              (forceLoop fs now target rest (deleteSessionInternal fs now id st).2.1).2.2) := by
          conv_lhs => rw [forceLoop]
          rw [if_neg hle]
        rw [hloop]
        have hhead : id ∈ st.sessions.map Prod.fst := hmem id (List.mem_cons_self id rest)
        have hsome : (odLookup st.sessions id).isSome := odLookup_isSome_iff_mem.mpr hhead
        have hsess1 : (deleteSessionInternal fs now id st).2.1.sessions =
            odErase st.sessions id := by
          rw [del_sessions, if_pos hsome]
        have hid_notin : id ∉ rest := (List.nodup_cons.mp hids).1
        have hn1 : KeysNodup (deleteSessionInternal fs now id st).2.1.sessions := by
          rw [hsess1]; exact keysNodup_odErase id hn
        have hmem1 : ∀ i ∈ rest,
            i ∈ (deleteSessionInternal fs now id st).2.1.sessions.map Prod.fst := by
          intro i hi
          rw [hsess1]
          have hine : i ≠ id := fun he => hid_notin (he ▸ hi)
          exact (mem_keys_odErase_of_ne hine).mpr (hmem i (List.mem_cons_of_mem id hi))
        obtain ⟨hs, hcfg⟩ := ih (deleteSessionInternal fs now id st).2.1 hn1
          (List.nodup_cons.mp hids).2 hmem1
        have hlen1 : (deleteSessionInternal fs now id st).2.1.sessions.length + 1 =
            st.sessions.length := by
          rw [hsess1]
          exact odErase_length_of_mem hn hhead
        constructor
        · rw [hs, hsess1]
          have hk : st.sessions.length - target =
              ((deleteSessionInternal fs now id st).2.1.sessions.length - target) + 1 := by
            omega
          rw [hk, List.take_succ_cons, hsess1, filter_erase_combine]
        · rw [hcfg, del_cfg]

theorem cleanupTimeout_cfg (fs : String → Bool) (now : Time) (st : SMState) :
    smCfg (cleanupTimeoutSessions fs now st).2.1 = smCfg st := by
  show smCfg { (deleteIds fs now _ st).2.1 with
    timeout_cleanups := _ } = smCfg st
  have := deleteIds_cfg fs now
    ((st.sessions.filter (fun p =>
      p.2.last_activity < now - (st.session_timeout_minutes : Int))).map Prod.fst) st
  simpa [smCfg] using this

theorem cleanupTimeout_sessions (fs : String → Bool) (now : Time) (st : SMState)
    (hn : KeysNodup st.sessions) :
    (cleanupTimeoutSessions fs now st).2.1.sessions =
      st.sessions.filter (fun p =>
        ¬ p.2.last_activity < now - (st.session_timeout_minutes : Int)) := by
  have hsub : ((st.sessions.filter (fun p =>
      p.2.last_activity < now - (st.session_timeout_minutes : Int))).map Prod.fst).Sublist
      (st.sessions.map Prod.fst) := (List.filter_sublist _).map Prod.fst
  obtain ⟨_, hs, _⟩ := deleteIds_spec fs now
    ((st.sessions.filter (fun p =>
      p.2.last_activity < now - (st.session_timeout_minutes : Int))).map Prod.fst) st hn
    (hsub.nodup hn) (fun i hi => hsub.mem hi)
  show (deleteIds fs now ((st.sessions.filter (fun p =>
      p.2.last_activity < now - (st.session_timeout_minutes : Int))).map Prod.fst)
      st).2.1.sessions = _
  rw [hs]
  apply List.filter_congr
  intro p hp
  have := mem_keys_filter_iff hn
    (fun p => p.2.last_activity < now - (st.session_timeout_minutes : Int)) hp
  by_cases hpred : p.2.last_activity < now - (st.session_timeout_minutes : Int)
  · have hmem : p.1 ∈ _ := this.mpr (by simpa using hpred)
    simp [hmem, hpred]
  · have hmem : p.1 ∉ (st.sessions.filter (fun p =>
        p.2.last_activity < now - (st.session_timeout_minutes : Int))).map Prod.fst := by
      intro hc2
      exact hpred (by simpa using this.mp hc2)
    simp [hmem, hpred]

theorem cleanupTimeout_nodup (fs : String → Bool) (now : Time) (st : SMState)
    (hn : KeysNodup st.sessions) :
    KeysNodup (cleanupTimeoutSessions fs now st).2.1.sessions := by
  rw [cleanupTimeout_sessions fs now st hn]
  exact ((List.filter_sublist _).map Prod.fst).nodup hn

theorem forceCleanup_spec (fs : String → Bool) (now : Time) (st : SMState)
    (hn : KeysNodup st.sessions) :
    (forceCleanup fs now st).2.1.sessions =
      st.sessions.filter (fun p => p.1 ∉ (odKeys (sortByActivity st.sessions)).take
        (st.sessions.length - max 1 (st.sessions.length / 3))) ∧
    (forceCleanup fs now st).2.1.sessions.length =
      min st.sessions.length (max 1 (st.sessions.length / 3)) := by
  have hperm : ((sortByActivity st.sessions).map Prod.fst).Perm
      (st.sessions.map Prod.fst) := (sortByActivity_perm st.sessions).map Prod.fst
  have hnodup : ((sortByActivity st.sessions).map Prod.fst).Nodup :=
    (hperm.nodup_iff).mpr hn
  have hmem : ∀ i ∈ (sortByActivity st.sessions).map Prod.fst,
      i ∈ st.sessions.map Prod.fst := fun i hi => hperm.mem_iff.mp hi
  obtain ⟨hs, _⟩ := forceLoop_spec fs now (max 1 (st.sessions.length / 3))
    ((sortByActivity st.sessions).map Prod.fst) st hn hnodup hmem
  constructor
  · exact hs
  · show (forceLoop fs now (max 1 (st.sessions.length / 3))
      ((sortByActivity st.sessions).map Prod.fst) st).2.1.sessions.length = _
    rw [hs]
    set S := ((sortByActivity st.sessions).map Prod.fst).take
      (st.sessions.length - max 1 (st.sessions.length / 3)) with hS
    have hSnodup : S.Nodup := (List.take_sublist _ _).nodup hnodup
    have hSmem : ∀ i ∈ S, i ∈ st.sessions.map Prod.fst :=
      fun i hi => hmem i (List.take_subset _ _ hi)
    have hlenS : S.length = st.sessions.length - max 1 (st.sessions.length / 3) := by
      rw [hS, List.length_take, List.length_map]
      have : (sortByActivity st.sessions).length = st.sessions.length :=
        (sortByActivity_perm st.sessions).length_eq
      omega
    rw [filter_not_mem_length S st.sessions hn hSnodup hSmem, hlenS]
    omega

end ClaimC7

section ClaimC7Main

/-- C7, counterexample: when the sampled usage equals
`force_cleanup_threshold_percent` (85), the sweep takes the *aggressive*
branch, not the force branch — 9 sessions are reduced only to 7, not to
`max 1 (9 / 3) = 3` as the claim's "at or above" trigger predicts. -/
theorem c7_threshold_equality_not_forced :
    stNine.force_cleanup_threshold_percent = 85 ∧
    stNine.sessions.length = 9 ∧
    (periodicCleanupBranch (fun _ => false) 85 9 stNine).1.sessions.length = 7 ∧
    ¬ (7 : Nat) ≤ max 1 (9 / 3) :=
  ⟨rfl, rfl, rfl, by norm_num⟩

/-- C7 (amended): whenever the sweep samples memory usage *strictly above*
`force_cleanup_threshold_percent`, the force cleanup runs on the state left
by the timeout sweep and removes sessions in ascending `last_activity`
order (the first `n - target` keys of the activity-sorted table) until at
most `max 1 (n / 3)` remain, where `n` is the session count when the force
cleanup starts; in particular 9 sessions are reduced to at most 3. -/
theorem c7_force_cleanup_amended (fs : String → Bool) (percent : Rat)
    (now : Time) (st : SMState) (hn : KeysNodup st.sessions)
    (hgt : st.force_cleanup_threshold_percent < percent) :
    (periodicCleanupBranch fs percent now st).1.sessions =
      (cleanupTimeoutSessions fs now st).2.1.sessions.filter (fun p =>
        p.1 ∉ (odKeys (sortByActivity (cleanupTimeoutSessions fs now st).2.1.sessions)).take
          ((cleanupTimeoutSessions fs now st).2.1.sessions.length -
            max 1 ((cleanupTimeoutSessions fs now st).2.1.sessions.length / 3))) ∧
    (periodicCleanupBranch fs percent now st).1.sessions.length ≤
      max 1 ((cleanupTimeoutSessions fs now st).2.1.sessions.length / 3) := by
  have hcfg := cleanupTimeout_cfg fs now st
  have hforce_eq : (cleanupTimeoutSessions fs now st).2.1.force_cleanup_threshold_percent =
      st.force_cleanup_threshold_percent := by
    simpa [smCfg, Prod.mk.injEq] using congrArg (fun t => t.2.2.2.1) hcfg
  have hnT : KeysNodup (cleanupTimeoutSessions fs now st).2.1.sessions :=
    cleanupTimeout_nodup fs now st hn
  have hbranch : periodicCleanupBranch fs percent now st =
      ({ (forceCleanup fs now (cleanupTimeoutSessions fs now st).2.1).2.1 with
          force_cleanups :=
            (forceCleanup fs now (cleanupTimeoutSessions fs now st).2.1).2.1.force_cleanups + 1 },
        (cleanupTimeoutSessions fs now st).2.2 ++
          (forceCleanup fs now (cleanupTimeoutSessions fs now st).2.1).2.2) := by
    unfold periodicCleanupBranch
    rw [if_pos (by rw [hforce_eq]; exact hgt)]
  obtain ⟨hs, hlen⟩ := forceCleanup_spec fs now (cleanupTimeoutSessions fs now st).2.1 hnT
  constructor
  · rw [hbranch]
    exact hs
  · rw [hbranch]
    show (forceCleanup fs now (cleanupTimeoutSessions fs now st).2.1).2.1.sessions.length ≤ _
    omega

theorem c7_force_cleanup_amended_witness :
    (periodicCleanupBranch (fun _ => false) 90 9 stNine).1.sessions.length ≤
      max 1 ((cleanupTimeoutSessions (fun _ => false) 9 stNine).2.1.sessions.length / 3) :=
  (c7_force_cleanup_amended (fun _ => false) 90 9 stNine
    (by show (stNine.sessions.map Prod.fst).Nodup; decide)
    (by norm_num [stNine, initSM])).2

end ClaimC7Main

section ClaimC4

theorem sse_lookup_map_self {l : List (String × ConnMgr)} {sid : String}
    {mgr : ConnMgr} (f : ConnMgr → ConnMgr)
    (h : (l.find? (fun p => p.1 = sid)).map (·.2) = some mgr) :
    ((l.map (fun p => if p.1 = sid then (p.1, f p.2) else p)).find?
      (fun p => p.1 = sid)).map (·.2) = some (f mgr) := by
  induction l with
  | nil => simp at h
  | cons p t ih =>
      by_cases hp : p.1 = sid
      · rw [List.find?_cons_of_pos _ (by simpa using hp)] at h
        simp at h
        rw [List.map_cons, if_pos hp,
          List.find?_cons_of_pos _ (by simpa using hp)]
        simp [h]
      · rw [List.find?_cons_of_neg _ (by simpa using hp)] at h
        rw [List.map_cons, if_neg hp,
          List.find?_cons_of_neg _ (by simpa using hp)]
        exact ih h

theorem sse_lookup_map_other {l : List (String × ConnMgr)} {sid k : String}
    (f : ConnMgr → ConnMgr) (hk : k ≠ sid) :
    ((l.map (fun p => if p.1 = sid then (p.1, f p.2) else p)).find?
      (fun p => p.1 = k)).map (·.2) = (l.find? (fun p => p.1 = k)).map (·.2) := by
  induction l with
  | nil => rfl
  | cons p t ih =>
      by_cases hp : p.1 = k
      · have hps : ¬ p.1 = sid := by rw [hp]; exact hk
        rw [List.map_cons, if_neg hps,
          List.find?_cons_of_pos _ (by simpa using hp),
          List.find?_cons_of_pos _ (by simpa using hp)]
      · rw [List.map_cons]
        by_cases hps : p.1 = sid
        · rw [if_pos hps,
            List.find?_cons_of_neg _ (by simp; rw [hps]; exact fun he => hk he.symm),
            List.find?_cons_of_neg _ (by simpa using hp)]
          exact ih
        · rw [if_neg hps,
            List.find?_cons_of_neg _ (by simpa using hp),
            List.find?_cons_of_neg _ (by simpa using hp)]
          exact ih

/-- C4: `send_message` with the service running: an unknown session id is a
silent no-op (the call is a total function — it cannot raise); for a known
id each subscriber queue in the snapshot receives the formatted event if it
is below capacity and drops it with a counted warning if it is at capacity;
other channels are untouched. -/
theorem c4_send_message_broadcast (st : SSEState) (sid : String)
    (mtype : SSEMessageType) (data : List (String × PyVal))
    (nowMicros errNow : Nat) (uuidHex8 tsIso : String)
    (hr : st.running = true) :
    (sseLookup st sid = Option.none →
      sendMessage nowMicros uuidHex8 tsIso errNow sid mtype data st = st) ∧
    (∀ mgr, sseLookup st sid = some mgr →
      sseLookup (sendMessage nowMicros uuidHex8 tsIso errNow sid mtype data st) sid =
        some (broadcastMessage
          (formatForSSE errNow (mkSSEMessage nowMicros uuidHex8 tsIso mtype data sid)) mgr) ∧
      (∀ k, k ≠ sid →
        sseLookup (sendMessage nowMicros uuidHex8 tsIso errNow sid mtype data st) k =
          sseLookup st k) ∧
      (sendMessage nowMicros uuidHex8 tsIso errNow sid mtype data st).total_messages_sent =
        st.total_messages_sent + 1) ∧
    (∀ (fd : String) (mgr : ConnMgr),
      (broadcastMessage fd mgr).connections = mgr.connections.map (fun q =>
        if q.maxsize ≤ q.buf.length then q else { q with buf := q.buf ++ [fd] }) ∧
      (broadcastMessage fd mgr).drop_warnings = mgr.drop_warnings +
        (mgr.connections.filter (fun q => q.maxsize ≤ q.buf.length)).length) := by
  refine ⟨?_, ?_, ?_⟩
  · intro h
    unfold sendMessage
    rw [if_neg (by rw [hr]; simp)]
    simp only [h]
  · intro mgr h
    have hsend : sendMessage nowMicros uuidHex8 tsIso errNow sid mtype data st =
        { st with
          managers := st.managers.map (fun p =>
            if p.1 = sid then (p.1, broadcastMessage
              (formatForSSE errNow (mkSSEMessage nowMicros uuidHex8 tsIso mtype data sid))
              p.2) else p)
          total_messages_sent := st.total_messages_sent + 1 } := by
      unfold sendMessage
      rw [if_neg (by rw [hr]; simp)]
      simp only [h]
    refine ⟨?_, ?_, ?_⟩
    · rw [hsend]
      exact sse_lookup_map_self _ h
    · intro k hk
      rw [hsend]
      exact sse_lookup_map_other _ hk
    · rw [hsend]
  · intro fd mgr
    unfold broadcastMessage
    by_cases he : mgr.connections.isEmpty
    · rw [if_pos he]
      have : mgr.connections = [] := List.isEmpty_iff.mp he
      rw [this]
      exact ⟨rfl, rfl⟩
    · rw [if_neg he]
      exact ⟨rfl, rfl⟩

theorem c4_send_message_broadcast_witness :
    sendMessage 1 "ab" "t0" 9 "zz" SSEMessageType.heartbeat [] sseSt = sseSt ∧
    (sendMessage 1 "ab" "t0" 9 "s1" SSEMessageType.heartbeat [] sseSt).total_messages_sent =
      sseSt.total_messages_sent + 1 :=
  ⟨(c4_send_message_broadcast sseSt "zz" SSEMessageType.heartbeat [] 1 9 "ab" "t0" rfl).1 rfl,
   ((c4_send_message_broadcast sseSt "s1" SSEMessageType.heartbeat [] 1 9 "ab" "t0" rfl).2.1
      ({ session_id := "s1"
         connections := [{ maxsize := 2, buf := ["old"] }, { maxsize := 1, buf := ["full"] }]
         drop_warnings := 0 }) rfl).2.2⟩

end ClaimC4

section ClaimC6

theorem pyLookup_cons (p : String × PyVal) (t : List (String × PyVal)) (k : String) :
    pyLookup (p :: t) k = if p.1 = k then some p.2 else pyLookup t k := by
  by_cases h : p.1 = k
  · simp [pyLookup, List.find?_cons_of_pos, h]
  · simp [pyLookup, List.find?_cons_of_neg, h]

theorem pyLookup_isSome_iff_mem {l : List (String × PyVal)} {k : String} :
    (pyLookup l k).isSome ↔ k ∈ l.map Prod.fst := by
  induction l with
  | nil => simp [pyLookup]
  | cons p t ih =>
      rw [pyLookup_cons]
      by_cases hp : p.1 = k
      · simp [hp]
      · simp only [if_neg hp, List.map_cons, List.mem_cons]
        rw [ih]
        constructor
        · exact fun h => Or.inr h
        · rintro (h1 | h2)
          · exact absurd h1.symm hp
          · exact h2

theorem pyLookup_eq_none_of_not_mem {l : List (String × PyVal)} {k : String}
    (h : k ∉ l.map Prod.fst) : pyLookup l k = Option.none := by
  have := (not_congr pyLookup_isSome_iff_mem).mpr h
  cases hlk : pyLookup l k with
  | none => rfl
  | some v => rw [hlk] at this; simp at this

theorem pyLookup_map_update_self {l : List (String × PyVal)} {k : String}
    (v : PyVal) (h : (pyLookup l k).isSome) :
    pyLookup (l.map (fun p => if p.1 = k then (k, v) else p)) k = some v := by
  induction l with
  | nil => simp [pyLookup] at h
  | cons p t ih =>
      rw [List.map_cons]
      by_cases hp : p.1 = k
      · rw [if_pos hp, pyLookup_cons, if_pos rfl]
      · rw [if_neg hp, pyLookup_cons, if_neg hp]
        rw [pyLookup_cons, if_neg hp] at h
        exact ih h

theorem pyLookup_map_update_other {l : List (String × PyVal)} {k k' : String}
    (v : PyVal) (h : k' ≠ k) :
    pyLookup (l.map (fun p => if p.1 = k then (k, v) else p)) k' = pyLookup l k' := by
  induction l with
  | nil => rfl
  | cons p t ih =>
      rw [List.map_cons, pyLookup_cons, pyLookup_cons]
      by_cases hp : p.1 = k
      · have h1 : ¬ k = k' := fun he => h he.symm
        have h2 : ¬ p.1 = k' := by rw [hp]; exact h1
        rw [if_pos hp]
        show (if k = k' then _ else _) = _
        rw [if_neg h1, if_neg h2]
        exact ih
      · rw [if_neg hp]
        show (if p.1 = k' then _ else _) = _
        by_cases hpk : p.1 = k'
        · rw [if_pos hpk, if_pos hpk]
        · rw [if_neg hpk, if_neg hpk]
          exact ih

theorem pyLookup_pySet_self (l : List (String × PyVal)) (k : String) (v : PyVal) :
    pyLookup (pySet l k v) k = some v := by
  unfold pySet
  split_ifs with hp
  · exact pyLookup_map_update_self v (by
      unfold pyLookup
      cases hf : l.find? (fun p => p.1 = k) with
      | none => rw [hf] at hp; simp at hp
      | some x => simp)
  · unfold pyLookup
    rw [List.find?_append]
    cases hf : l.find? (fun p => p.1 = k) with
    | none => simp [List.find?]
    | some x => rw [hf] at hp; simp at hp

theorem pyLookup_pySet_other {l : List (String × PyVal)} {k k' : String}
    (v : PyVal) (h : k' ≠ k) :
    pyLookup (pySet l k v) k' = pyLookup l k' := by
  unfold pySet
  split_ifs with hp
  · exact pyLookup_map_update_other v h
  · unfold pyLookup
    rw [List.find?_append]
    cases hf : l.find? (fun p => p.1 = k') with
    | some x => simp [hf]
    | none =>
        simp only [Option.none_or]
        rw [List.find?_cons_of_neg _ (by simp; exact fun he => h he.symm), List.find?_nil]

theorem pyLookup_pyUpdate_of_not_mem :
    ∀ (add base : List (String × PyVal)) (k : String), k ∉ add.map Prod.fst →
    pyLookup (pyUpdate base add) k = pyLookup base k := by
  intro add
  induction add with
  | nil => intro base k _; rfl
  | cons p rest ih =>
      intro base k hk
      simp only [List.map_cons, List.mem_cons, not_or] at hk
      show pyLookup (pyUpdate (pySet base p.1 p.2) rest) k = _
      rw [ih (pySet base p.1 p.2) k hk.2, pyLookup_pySet_other p.2 hk.1]

theorem pyLookup_pyUpdate_of_mem :
    ∀ (add base : List (String × PyVal)) (k : String), (add.map Prod.fst).Nodup →
    k ∈ add.map Prod.fst →
    pyLookup (pyUpdate base add) k = pyLookup add k := by
  intro add
  induction add with
  | nil => intro base k _ hk; simp at hk
  | cons p rest ih =>
      intro base k hnd hk
      simp only [List.map_cons, List.nodup_cons] at hnd
      show pyLookup (pyUpdate (pySet base p.1 p.2) rest) k = _
      by_cases hp : p.1 = k
      · rw [pyLookup_pyUpdate_of_not_mem rest _ k (by rw [← hp]; exact hnd.1),
          hp, pyLookup_pySet_self, pyLookup_cons, if_pos hp]
      · have hk' : k ∈ rest.map Prod.fst := by
          rcases List.mem_cons.mp hk with h1 | h2
          · exact absurd h1.symm hp
          · exact h2
        rw [ih (pySet base p.1 p.2) k hnd.2 hk', pyLookup_cons, if_neg hp]

/-- C6: `format_for_sse` emits an `id:` line, an `event:` line carrying the
enum's string value, one `data:` line per line of the JSON payload and a
terminating blank line; the payload is the event data merged over
`session_id` and `timestamp`; enum members are encoded as their string
value; and when JSON encoding raises, the fixed minimal error event is
returned instead of an exception escaping. -/
theorem c6_format_for_sse :
    (∀ (msg : SSEMessage) (errNow : Nat) (ds : String),
      jsonDumps (PyVal.dict (mergedPayload msg)) = some ds →
      formatForSSE errNow msg = String.intercalate "\n"
        (["id: " ++ msg.id, "event: " ++ msg.type.value]
          ++ (ds.splitOn "\n").map (fun line => "data: " ++ line) ++ [""]) ++ "\n")
    ∧ (∀ (msg : SSEMessage) (errNow : Nat),
      jsonDumps (PyVal.dict (mergedPayload msg)) = Option.none →
      formatForSSE errNow msg = sseErrorFallback errNow)
    ∧ (∀ (msg : SSEMessage) (k : String), (pyKeys msg.data).Nodup →
      k ≠ "session_id" → k ≠ "timestamp" →
      pyLookup (mergedPayload msg) k = pyLookup msg.data k)
    ∧ (∀ msg : SSEMessage, "session_id" ∉ pyKeys msg.data →
      pyLookup (mergedPayload msg) "session_id" = some (PyVal.str msg.session_id))
    ∧ (∀ msg : SSEMessage, "timestamp" ∉ pyKeys msg.data →
      pyLookup (mergedPayload msg) "timestamp" = some (PyVal.str msg.timestamp))
    ∧ (∀ s : String, jsonDumps (PyVal.enum s) = some (jsonQuote s)) := by
  refine ⟨?_, ?_, ?_, ?_, ?_, ?_⟩
  · intro msg errNow ds h
    unfold formatForSSE
    rw [h]
  · intro msg errNow h
    unfold formatForSSE
    rw [h]
  · intro msg k hnd hk1 hk2
    unfold mergedPayload
    by_cases hmem : k ∈ msg.data.map Prod.fst
    · exact pyLookup_pyUpdate_of_mem msg.data _ k hnd hmem
    · rw [pyLookup_pyUpdate_of_not_mem msg.data _ k hmem,
        pyLookup_eq_none_of_not_mem hmem,
        pyLookup_eq_none_of_not_mem (by
          simp only [List.map_cons, List.map_nil, List.mem_cons,
            List.not_mem_nil, or_false]
          push_neg
          exact ⟨hk1, hk2⟩)]
  · intro msg hmem
    unfold mergedPayload
    rw [pyLookup_pyUpdate_of_not_mem msg.data _ _ hmem]
    rw [pyLookup_cons, if_pos rfl]
  · intro msg hmem
    unfold mergedPayload
    rw [pyLookup_pyUpdate_of_not_mem msg.data _ _ hmem]
    rw [pyLookup_cons, if_neg ((by decide : ¬ "session_id" = "timestamp")),
      pyLookup_cons, if_pos rfl]
  · intro s
    rfl

theorem c6_format_for_sse_witness :
    formatForSSE 7 msgW = String.intercalate "\n"
      (["id: " ++ msgW.id, "event: " ++ msgW.type.value]
        ++ (("\x7b\"session_id\": \"s1\", \"timestamp\": \"2026-01-01T00:00:00\", \"x\": \"round_start\", \"n\": 3\x7d").splitOn "\n").map
            (fun line => "data: " ++ line) ++ [""]) ++ "\n" ∧
    pyLookup (mergedPayload msgW) "n" = pyLookup msgW.data "n" :=
  ⟨c6_format_for_sse.1 msgW 7 _ rfl,
   c6_format_for_sse.2.2.1 msgW "n" (by decide) (by decide) (by decide)⟩

end ClaimC6

section ClaimC3

/-- C3: the claim demands that deleting a session whose stored
`workspace_path` resolves outside the configured workspace root refuses the
recursive delete.  The code's `str.startswith` check accepts the sibling
directory `c3evil`, which shares the root as a *string* prefix yet does not
resolve under it — `shutil.rmtree` runs on it (the recorded trace is
non-empty), exposing the prefix-matching bug; the record is removed and the
call returns true.  For a `..`-laden path that fails the string-prefix
check, refusal works as claimed: nothing is removed from disk while the
record is still deleted. -/
theorem c3_workspace_prefix_escape_bug :
    (resolvesUnder "/app" c3root c3evil = false ∧
      (deleteSession fsC3 5 "s" stC3).1 = true ∧
      (deleteSession fsC3 5 "s" stC3).2.2 = [c3evil] ∧
      (odLookup (deleteSession fsC3 5 "s" stC3).2.1.sessions "s").isNone = true) ∧
    (resolvesUnder "/app" c3root c3dotdot = false ∧
      (deleteSession fsC3 5 "s" stC3b).1 = true ∧
      (deleteSession fsC3 5 "s" stC3b).2.2 = [] ∧
      (odLookup (deleteSession fsC3 5 "s" stC3b).2.1.sessions "s").isNone = true) := by
  refine ⟨⟨by decide, by decide, by decide, by decide⟩,
    ⟨by decide, by decide, by decide, by decide⟩⟩

end ClaimC3

section HeapLemmas

theorem ExtOK_refl (h : Heap) : ExtOK h h :=
  ⟨le_refl _, [], by simp, by simp⟩

theorem ExtOK_trans {h0 h1 h2 : Heap} (e1 : ExtOK h0 h1) (e2 : ExtOK h1 h2) :
    ExtOK h0 h2 := by
  obtain ⟨hn1, x1, hc1, hx1⟩ := e1
  obtain ⟨hn2, x2, hc2, hx2⟩ := e2
  refine ⟨le_trans hn1 hn2, x1 ++ x2, by rw [hc2, hc1, List.append_assoc], ?_⟩
  intro c hc
  rcases List.mem_append.mp hc with h1 | h2
  · obtain ⟨ha, hb, hr⟩ := hx1 c h1
    exact ⟨ha, lt_of_lt_of_le hb hn2, hr⟩
  · obtain ⟨ha, hb, hr⟩ := hx2 c h2
    exact ⟨le_trans hn1 ha, hb, fun b hbr => le_trans hn1 (hr b hbr)⟩

theorem heapBounded_spec {h : Heap} (hb : heapBounded h = true) :
    ∀ c ∈ h.cells, c.1 < h.next ∧ ∀ b ∈ refsOfObj c.2, b < h.next := by
  intro c hc
  unfold heapBounded at hb
  rw [List.all_eq_true] at hb
  have := hb c hc
  rw [Bool.and_eq_true, List.all_eq_true] at this
  refine ⟨by simpa using this.1, ?_⟩
  intro b hbr
  have := this.2 b hbr
  simpa using this

theorem extOK_lookup_low {h0 h : Heap}
    (he : ExtOK h0 h) {a : Addr} (ha : a < h0.next) :
    lookupH h a = lookupH h0 a := by
  obtain ⟨_, extra, hc, hx⟩ := he
  unfold lookupH
  rw [hc, List.find?_append]
  have hnone : extra.find? (fun c => c.1 = a) = Option.none := by
    rw [List.find?_eq_none]
    intro c hcm he2
    have h1 := (hx c hcm).1
    have h2 : c.1 = a := by simpa using he2
    exact absurd (h2 ▸ h1) (not_le_of_lt ha)
  cases hf : h0.cells.find? (fun c => c.1 = a) with
  | some x => simp [hf]
  | none => simp [hf, hnone]

theorem extOK_lookup_high {h0 h : Heap} (hb : heapBounded h0 = true)
    (he : ExtOK h0 h) {a : Addr} (ha : h0.next ≤ a) {o : HObj}
    (hl : lookupH h a = some o) : ∀ b ∈ refsOfObj o, h0.next ≤ b := by
  obtain ⟨_, extra, hc, hx⟩ := he
  unfold lookupH at hl
  cases hf : h.cells.find? (fun c => c.1 = a) with
  | none => rw [hf] at hl; simp at hl
  | some cell =>
      rw [hf] at hl
      have hco : cell.2 = o := by simpa using hl
      have hcm : cell ∈ h.cells := List.mem_of_find?_eq_some hf
      have hpred : cell.1 = a := by simpa using List.find?_some hf
      rw [hc] at hcm
      rcases List.mem_append.mp hcm with h1 | h2
      · have hlt := (heapBounded_spec hb cell h1).1
        exact absurd (hpred ▸ hlt) (not_lt_of_le ha)
      · intro b hbr
        exact (hx cell h2).2.2 b (hco.symm ▸ hbr)

theorem map_if_ne_addr (l : List (Addr × HObj)) (x : Addr) (o : HObj)
    (h : ∀ c ∈ l, ¬ c.1 = x) :
    l.map (fun c => if c.1 = x then (x, o) else c) = l := by
  induction l with
  | nil => rfl
  | cons p t ih =>
      rw [List.map_cons, if_neg (h p (List.mem_cons_self p t)),
        ih (fun c hc => h c (List.mem_cons_of_mem p hc))]

theorem ExtOK_setH {h0 h : Heap} (hb : heapBounded h0 = true)
    (he : ExtOK h0 h) {x : Addr} (hx : h0.next ≤ x) {o : HObj}
    (ho : ∀ b ∈ refsOfObj o, h0.next ≤ b) : ExtOK h0 (setH h x o) := by
  obtain ⟨hn, extra, hc, hex⟩ := he
  refine ⟨hn, extra.map (fun c => if c.1 = x then (x, o) else c), ?_, ?_⟩
  · show h.cells.map _ = _
    rw [hc, List.map_append]
    congr 1
    apply map_if_ne_addr
    intro c hcm he2
    have := (heapBounded_spec hb c hcm).1
    exact absurd (he2 ▸ this) (not_lt_of_le hx)
  · intro c hcm
    obtain ⟨c0, hc0m, hc0e⟩ := List.mem_map.mp hcm
    obtain ⟨ha0, hb0, hr0⟩ := hex c0 hc0m
    by_cases hcx : c0.1 = x
    · rw [if_pos hcx] at hc0e
      rw [← hc0e]
      exact ⟨hx, hcx ▸ hb0, ho⟩
    · rw [if_neg hcx] at hc0e
      rw [← hc0e]
      exact ⟨ha0, hb0, hr0⟩

theorem ExtOK_alloc {h0 h : Heap} (he : ExtOK h0 h) {o : HObj}
    (ho : ∀ b ∈ refsOfObj o, h0.next ≤ b) : ExtOK h0 (allocH h o).2 := by
  obtain ⟨hn, extra, hc, hex⟩ := he
  refine ⟨Nat.le_succ_of_le hn, extra ++ [(h.next, o)], ?_, ?_⟩
  · show h.cells ++ [(h.next, o)] = _
    rw [hc, List.append_assoc]
  · intro c hcm
    rcases List.mem_append.mp hcm with h1 | h2
    · obtain ⟨ha, hb2, hr⟩ := hex c h1
      exact ⟨ha, Nat.lt_succ_of_lt hb2, hr⟩
    · simp only [List.mem_singleton] at h2
      rw [h2]
      exact ⟨hn, Nat.lt_succ_self _, ho⟩

end HeapLemmas

section DeepcopyLemmas

theorem deepcopy_atom {h : Heap} {v v1 : HVal} {h1 : Heap}
    (hd : some (v, h) = some (v1, h1)) (hatom : refsOfVal v = []) :
    ExtOK h h1 ∧ ∀ b ∈ refsOfVal v1, h.next ≤ b ∧ b < h1.next := by
  obtain ⟨hv, hh⟩ := Prod.mk.inj (Option.some.inj hd)
  subst hv
  subst hh
  exact ⟨ExtOK_refl h, by rw [hatom]; simp⟩

theorem deepcopy_ext : ∀ fuel : Nat,
    DeepcopyVExt fuel ∧ DeepcopyEsExt fuel ∧ DeepcopyXsExt fuel := by
  intro fuel
  induction fuel with
  | zero =>
      refine ⟨?_, ?_, ?_⟩
      · intro h v v1 h1 hd
        cases v with
        | vstr s => exact deepcopy_atom hd rfl
        | vint m => exact deepcopy_atom hd rfl
        | vbool b => exact deepcopy_atom hd rfl
        | vnone => exact deepcopy_atom hd rfl
        | href a => exact Option.noConfusion hd
      · intro h es es1 h1 hd
        cases es with
        | nil =>
            obtain ⟨h1e, h2e⟩ := Prod.mk.inj (Option.some.inj hd)
            rw [← h1e, ← h2e]
            exact ⟨ExtOK_refl h, by simp [refsOfObj]⟩
        | cons e rest => exact Option.noConfusion hd
      · intro h xs xs1 h1 hd
        cases xs with
        | nil =>
            obtain ⟨h1e, h2e⟩ := Prod.mk.inj (Option.some.inj hd)
            rw [← h1e, ← h2e]
            exact ⟨ExtOK_refl h, by simp [refsOfObj]⟩
        | cons v rest => exact Option.noConfusion hd
  | succ n ihn =>
      obtain ⟨ihV, ihEs, ihXs⟩ := ihn
      refine ⟨?_, ?_, ?_⟩
      · intro h v v1 h1 hd
        cases v with
        | vstr s => exact deepcopy_atom hd rfl
        | vint m => exact deepcopy_atom hd rfl
        | vbool b => exact deepcopy_atom hd rfl
        | vnone => exact deepcopy_atom hd rfl
        | href a =>
            have hd' : (lookupH h a).bind (fun o => match o with
                | .hdict es => (deepcopyEs n h es).bind (fun r =>
                    some (HVal.href (allocH r.2 (.hdict r.1)).1,
                      (allocH r.2 (.hdict r.1)).2))
                | .hlist xs => (deepcopyXs n h xs).bind (fun r =>
                    some (HVal.href (allocH r.2 (.hlist r.1)).1,
                      (allocH r.2 (.hlist r.1)).2))) = some (v1, h1) := hd
            cases hlk : lookupH h a with
            | none => rw [hlk] at hd'; simp at hd'
            | some o =>
                rw [hlk] at hd'
                simp only [Option.some_bind] at hd'
                cases o with
                | hdict es =>
                    dsimp only at hd'
                    cases hes : deepcopyEs n h es with
                    | none => rw [hes] at hd'; simp at hd'
                    | some r =>
                        rw [hes] at hd'
                        simp only [Option.some_bind] at hd'
                        obtain ⟨hv1, hh1⟩ := Prod.mk.inj (Option.some.inj hd')
                        obtain ⟨hext, hrefs⟩ := ihEs h es r.1 r.2 hes
                        rw [← hv1, ← hh1]
                        refine ⟨ExtOK_alloc hext (fun b hb => (hrefs b hb).1), ?_⟩
                        intro b hb
                        simp only [refsOfVal, List.mem_singleton] at hb
                        rw [hb]
                        exact ⟨hext.1, Nat.lt_succ_self _⟩
                | hlist xs =>
                    dsimp only at hd'
                    cases hxs : deepcopyXs n h xs with
                    | none => rw [hxs] at hd'; simp at hd'
                    | some r =>
                        rw [hxs] at hd'
                        simp only [Option.some_bind] at hd'
                        obtain ⟨hv1, hh1⟩ := Prod.mk.inj (Option.some.inj hd')
                        obtain ⟨hext, hrefs⟩ := ihXs h xs r.1 r.2 hxs
                        rw [← hv1, ← hh1]
                        refine ⟨ExtOK_alloc hext (fun b hb => (hrefs b hb).1), ?_⟩
                        intro b hb
                        simp only [refsOfVal, List.mem_singleton] at hb
                        rw [hb]
                        exact ⟨hext.1, Nat.lt_succ_self _⟩
      · intro h es es1 h1 hd
        cases es with
        | nil =>
            obtain ⟨h1e, h2e⟩ := Prod.mk.inj (Option.some.inj hd)
            rw [← h1e, ← h2e]
            exact ⟨ExtOK_refl h, by simp [refsOfObj]⟩
        | cons e rest =>
            have hd' : (deepcopyV n h e.2).bind (fun rv =>
                (deepcopyEs n rv.2 rest).bind (fun res =>
                  some ((e.1, rv.1) :: res.1, res.2))) = some (es1, h1) := hd
            cases hv : deepcopyV n h e.2 with
            | none => rw [hv] at hd'; simp at hd'
            | some rv =>
                rw [hv] at hd'
                simp only [Option.some_bind] at hd'
                cases hres : deepcopyEs n rv.2 rest with
                | none => rw [hres] at hd'; simp at hd'
                | some res =>
                    rw [hres] at hd'
                    simp only [Option.some_bind] at hd'
                    obtain ⟨h1e, h2e⟩ := Prod.mk.inj (Option.some.inj hd')
                    obtain ⟨hextv, hrefv⟩ := ihV h e.2 rv.1 rv.2 hv
                    obtain ⟨hexte, hrefe⟩ := ihEs rv.2 rest res.1 res.2 hres
                    rw [← h1e, ← h2e]
                    refine ⟨ExtOK_trans hextv hexte, ?_⟩
                    intro b hb
                    simp only [refsOfObj, List.flatMap_cons, List.mem_append] at hb
                    rcases hb with hb1 | hb2
                    · obtain ⟨hlo, hhi⟩ := hrefv b hb1
                      exact ⟨hlo, lt_of_lt_of_le hhi hexte.1⟩
                    · obtain ⟨hlo, hhi⟩ := hrefe b (by
                        show b ∈ refsOfObj (.hdict res.1)
                        simpa [refsOfObj] using hb2)
                      exact ⟨le_trans hextv.1 hlo, hhi⟩
      · intro h xs xs1 h1 hd
        cases xs with
        | nil =>
            obtain ⟨h1e, h2e⟩ := Prod.mk.inj (Option.some.inj hd)
            rw [← h1e, ← h2e]
            exact ⟨ExtOK_refl h, by simp [refsOfObj]⟩
        | cons v rest =>
            have hd' : (deepcopyV n h v).bind (fun rv =>
                (deepcopyXs n rv.2 rest).bind (fun res =>
                  some (rv.1 :: res.1, res.2))) = some (xs1, h1) := hd
            cases hv : deepcopyV n h v with
            | none => rw [hv] at hd'; simp at hd'
            | some rv =>
                rw [hv] at hd'
                simp only [Option.some_bind] at hd'
                cases hres : deepcopyXs n rv.2 rest with
                | none => rw [hres] at hd'; simp at hd'
                | some res =>
                    rw [hres] at hd'
                    simp only [Option.some_bind] at hd'
                    obtain ⟨h1e, h2e⟩ := Prod.mk.inj (Option.some.inj hd')
                    obtain ⟨hextv, hrefv⟩ := ihV h v rv.1 rv.2 hv
                    obtain ⟨hexte, hrefe⟩ := ihXs rv.2 rest res.1 res.2 hres
                    rw [← h1e, ← h2e]
                    refine ⟨ExtOK_trans hextv hexte, ?_⟩
                    intro b hb
                    simp only [refsOfObj, List.flatMap_cons, List.mem_append] at hb
                    rcases hb with hb1 | hb2
                    · obtain ⟨hlo, hhi⟩ := hrefv b hb1
                      exact ⟨hlo, lt_of_lt_of_le hhi hexte.1⟩
                    · obtain ⟨hlo, hhi⟩ := hrefe b (by
                        show b ∈ refsOfObj (.hlist res.1)
                        simpa [refsOfObj] using hb2)
                      exact ⟨le_trans hextv.1 hlo, hhi⟩

end DeepcopyLemmas

section ReachLemmas

theorem lookupH_mem {h : Heap} {a : Addr} {o : HObj}
    (hl : lookupH h a = some o) : ∃ c ∈ h.cells, c.1 = a ∧ c.2 = o := by
  unfold lookupH at hl
  cases hf : h.cells.find? (fun c => c.1 = a) with
  | none => rw [hf] at hl; simp at hl
  | some cell =>
      rw [hf] at hl
      exact ⟨cell, List.mem_of_find?_eq_some hf,
        by simpa using List.find?_some hf, by simpa using hl⟩

theorem reach_low {h0 : Heap} (hb : heapBounded h0 = true) {a b : Addr}
    (ha : a < h0.next) (hr : ReachableH h0 a b) : b < h0.next := by
  induction hr with
  | refl => exact ha
  | step hr1 hl hc ih =>
      obtain ⟨cell, hcm, hc1, hc2⟩ := lookupH_mem hl
      exact (heapBounded_spec hb cell hcm).2 _ (hc2.symm ▸ hc)

theorem reach_high {h0 h : Heap} (hb : heapBounded h0 = true) (he : ExtOK h0 h)
    {a b : Addr} (ha : h0.next ≤ a) (hr : ReachableH h a b) : h0.next ≤ b := by
  induction hr with
  | refl => exact ha
  | step hr1 hl hc ih => exact extOK_lookup_high hb he ih hl _ hc

theorem heapTruthy_congr {h h0 : Heap} {a : Addr}
    (hl : lookupH h a = lookupH h0 a) : heapTruthy h a = heapTruthy h0 a := by
  unfold heapTruthy
  rw [hl]

theorem mem_refs_hdict {es : List (String × HVal)} {b : Addr} :
    b ∈ refsOfObj (.hdict es) ↔ ∃ e ∈ es, b ∈ refsOfVal e.2 := by
  simp [refsOfObj, List.mem_flatMap]

end ReachLemmas

section ConfigBuildLemmas

theorem ExtOK_popKeyH {h0 h : Heap} (hb : heapBounded h0 = true)
    (he : ExtOK h0 h) {a : Addr} (ha : h0.next ≤ a) (k : String) :
    ExtOK h0 (popKeyH h a k).2 := by
  unfold popKeyH
  cases hlk : lookupH h a with
  | none => exact he
  | some o =>
      cases o with
      | hlist xs => exact he
      | hdict es =>
          dsimp only
          cases hf : es.find? (fun e => e.1 = k) with
          | none => exact he
          | some e =>
              dsimp only
              apply ExtOK_setH hb he ha
              intro b hbm
              rw [mem_refs_hdict] at hbm
              obtain ⟨e1, he1m, hbe⟩ := hbm
              exact extOK_lookup_high hb he ha hlk b
                (mem_refs_hdict.mpr ⟨e1, (List.mem_filter.mp he1m).1, hbe⟩)

theorem ExtOK_popReservedH {h0 h : Heap} (hb : heapBounded h0 = true)
    (he : ExtOK h0 h) {a : Addr} (ha : h0.next ≤ a) :
    ExtOK h0 (popReservedH h a).2 := by
  have haux : ∀ (ks : List String) (acc : List (String × HVal) × Heap),
      ExtOK h0 acc.2 →
      ExtOK h0 ((ks.foldl
        (fun (acc : List (String × HVal) × Heap) k =>
          let r := popKeyH acc.2 a k
          match r.1 with
          | some v => (acc.1 ++ [(k, v)], r.2)
          | Option.none => (acc.1, r.2))
        acc)).2 := by
    intro ks
    induction ks with
    | nil => intro acc hacc; exact hacc
    | cons k rest ih =>
        intro acc hacc
        rw [List.foldl_cons]
        apply ih
        have hkey := ExtOK_popKeyH hb hacc ha k
        dsimp only
        cases (popKeyH acc.2 a k).1 with
        | some v => exact hkey
        | none => exact hkey
  unfold popReservedH
  exact haux reservedKeys ([], h) he

theorem ExtOK_dictSetH {h0 h : Heap} (hb : heapBounded h0 = true)
    (he : ExtOK h0 h) {dst : Addr} (hdst : h0.next ≤ dst) (k : String) {v : HVal}
    (hv : ∀ b ∈ refsOfVal v, h0.next ≤ b) : ExtOK h0 (dictSetH h dst k v) := by
  unfold dictSetH
  cases hlk : lookupH h dst with
  | none => exact he
  | some o =>
      cases o with
      | hlist xs => exact he
      | hdict es =>
          dsimp only
          have hold := extOK_lookup_high hb he hdst hlk
          by_cases hf : (es.find? (fun e => e.1 = k)).isSome = true
          · rw [if_pos hf]
            apply ExtOK_setH hb he hdst
            intro b hbm
            rw [mem_refs_hdict] at hbm
            obtain ⟨e1, he1m, hbe⟩ := hbm
            obtain ⟨e0, he0m, he0e⟩ := List.mem_map.mp he1m
            by_cases hek : e0.1 = k
            · rw [if_pos hek] at he0e
              rw [← he0e] at hbe
              exact hv b hbe
            · rw [if_neg hek] at he0e
              rw [← he0e] at hbe
              exact hold b (mem_refs_hdict.mpr ⟨e0, he0m, hbe⟩)
          · rw [if_neg hf]
            apply ExtOK_setH hb he hdst
            intro b hbm
            rw [mem_refs_hdict] at hbm
            obtain ⟨e1, he1m, hbe⟩ := hbm
            rcases List.mem_append.mp he1m with h1 | h2
            · exact hold b (mem_refs_hdict.mpr ⟨e1, h1, hbe⟩)
            · simp only [List.mem_singleton] at h2
              rw [h2] at hbe
              exact hv b hbe

theorem ExtOK_updateH {h0 h : Heap} (hb : heapBounded h0 = true)
    (he : ExtOK h0 h) {dst src : Addr} (hdst : h0.next ≤ dst)
    (hsrc : h0.next ≤ src) : ExtOK h0 (updateH h dst src) := by
  unfold updateH
  cases hlk : lookupH h src with
  | none => exact he
  | some o =>
      cases o with
      | hlist xs => exact he
      | hdict es =>
          dsimp only
          have hsrcrefs := extOK_lookup_high hb he hsrc hlk
          have haux : ∀ (l : List (String × HVal)),
              (∀ e ∈ l, ∀ b ∈ refsOfVal e.2, h0.next ≤ b) →
              ∀ (hh : Heap), ExtOK h0 hh →
              ExtOK h0 (l.foldl (fun h1 e => dictSetH h1 dst e.1 e.2) hh) := by
            intro l
            induction l with
            | nil => intro _ hh hhe; exact hhe
            | cons e rest ih =>
                intro hl hh hhe
                rw [List.foldl_cons]
                exact ih (fun e1 he1 => hl e1 (List.mem_cons_of_mem e he1))
                  (dictSetH hh dst e.1 e.2)
                  (ExtOK_dictSetH hb hhe hdst e.1 (hl e (List.mem_cons_self e rest)))
          exact haux es (fun e hem b hbe =>
            hsrcrefs b (mem_refs_hdict.mpr ⟨e, hem, hbe⟩)) h he

theorem buildSessionConfigH_ext {fuel : Nat} {h0 : Heap} {ca da sc : Addr}
    {meta : List (String × HVal)} {h1 : Heap}
    (hb : heapBounded h0 = true) (hca : ca < h0.next)
    (hrun : buildSessionConfigH fuel h0 (some ca) da = some (sc, meta, h1)) :
    ExtOK h0 h1 ∧ h0.next ≤ sc := by
  obtain ⟨dV, dEs, dXs⟩ := deepcopy_ext fuel
  unfold buildSessionConfigH at hrun
  dsimp only at hrun
  by_cases ht : heapTruthy h0 ca = true
  · rw [if_pos ht] at hrun
    cases hdc : deepcopyV fuel h0 (.href ca) with
    | none => rw [hdc] at hrun; exact Option.noConfusion hrun
    | some r =>
        rw [hdc] at hrun
        obtain ⟨v1, hA⟩ := r
        cases v1 with
        | vstr s => exact Option.noConfusion hrun
        | vint m => exact Option.noConfusion hrun
        | vbool b => exact Option.noConfusion hrun
        | vnone => exact Option.noConfusion hrun
        | href cc =>
            dsimp only at hrun
            cases hpr : popReservedH hA cc with
            | mk m2 h2 =>
                rw [hpr] at hrun
                dsimp only at hrun
                cases hdd : deepcopyV fuel h2 (.href da) with
                | none => rw [hdd] at hrun; exact Option.noConfusion hrun
                | some r2 =>
                    rw [hdd] at hrun
                    obtain ⟨w1, h3⟩ := r2
                    cases w1 with
                    | vstr s => exact Option.noConfusion hrun
                    | vint m => exact Option.noConfusion hrun
                    | vbool b => exact Option.noConfusion hrun
                    | vnone => exact Option.noConfusion hrun
                    | href sc1 =>
                        dsimp only at hrun
                        have hinj := Option.some.inj hrun
                        obtain ⟨hsc1, hrest⟩ := Prod.mk.inj hinj
                        obtain ⟨hm1, hh1⟩ := Prod.mk.inj hrest
                        obtain ⟨e1, hrefs1⟩ := dV h0 _ _ _ hdc
                        have hcc := hrefs1 cc (by simp [refsOfVal])
                        have e2 : ExtOK h0 (popReservedH hA cc).2 :=
                          ExtOK_popReservedH hb e1 hcc.1
                        rw [hpr] at e2
                        obtain ⟨e3, hrefs3⟩ := dV h2 _ _ _ hdd
                        have hsc2 := hrefs3 sc1 (by simp [refsOfVal])
                        have e03 : ExtOK h0 h3 := ExtOK_trans e2 e3
                        have hscn : h0.next ≤ sc1 := le_trans e2.1 hsc2.1
                        have e4 : ExtOK h0
                            (if heapTruthy h3 cc then updateH h3 sc1 cc else h3) := by
                          by_cases ht3 : heapTruthy h3 cc = true
                          · rw [if_pos ht3]
                            exact ExtOK_updateH hb e03 hscn hcc.1
                          · rw [if_neg ht3]
                            exact e03
                        rw [← hsc1, ← hh1]
                        exact ⟨e4, hscn⟩
  · rw [if_neg ht] at hrun
    dsimp only at hrun
    cases hdd : deepcopyV fuel h0 (.href da) with
    | none => rw [hdd] at hrun; exact Option.noConfusion hrun
    | some r2 =>
        rw [hdd] at hrun
        obtain ⟨w1, h3⟩ := r2
        cases w1 with
        | vstr s => exact Option.noConfusion hrun
        | vint m => exact Option.noConfusion hrun
        | vbool b => exact Option.noConfusion hrun
        | vnone => exact Option.noConfusion hrun
        | href sc1 =>
            dsimp only at hrun
            have hinj := Option.some.inj hrun
            obtain ⟨hsc1, hrest⟩ := Prod.mk.inj hinj
            obtain ⟨hm1, hh1⟩ := Prod.mk.inj hrest
            obtain ⟨e3, hrefs3⟩ := dV h0 _ _ _ hdd
            have hscn : h0.next ≤ sc1 := (hrefs3 sc1 (by simp [refsOfVal])).1
            have htl : heapTruthy h3 ca = heapTruthy h0 ca :=
              heapTruthy_congr (extOK_lookup_low e3 hca)
            have htf : heapTruthy h0 ca = false := by
              cases hcb : heapTruthy h0 ca with
              | false => rfl
              | true => exact absurd hcb ht
            have hskip : (if heapTruthy h3 ca then updateH h3 sc1 ca else h3) = h3 := by
              rw [htl, htf]
              simp
            rw [← hsc1, ← hh1, hskip]
            exact ⟨e3, hscn⟩

end ConfigBuildLemmas

section ClaimC10

/-- C10: the configuration handling of `create_session` never mutates the
caller-supplied `custom_config` (every pre-existing heap cell, in particular
the caller's dict and `default_config`, is untouched), stores the
`session_config` in a fresh cell, and the stored config shares no reachable
structure with the caller's dict or with `default_config`. -/
theorem c10_config_isolation (fuel : Nat) (h0 : Heap) (ca da sc : Addr)
    (meta : List (String × HVal)) (h1 : Heap)
    (hb : heapBounded h0 = true) (hca : ca < h0.next) (hda : da < h0.next)
    (hrun : buildSessionConfigH fuel h0 (some ca) da = some (sc, meta, h1)) :
    (∀ a, a < h0.next → lookupH h1 a = lookupH h0 a) ∧
    h0.next ≤ sc ∧
    (∀ a, ReachableH h1 sc a → ¬ ReachableH h0 ca a) ∧
    (∀ a, ReachableH h1 sc a → ¬ ReachableH h0 da a) := by
  obtain ⟨hext, hsc⟩ := buildSessionConfigH_ext hb hca hrun
  refine ⟨fun a ha => extOK_lookup_low hext ha, hsc, ?_, ?_⟩
  · intro a hr hr0
    exact absurd (reach_low hb hca hr0)
      (not_lt_of_le (reach_high hb hext hsc hr))
  · intro a hr hr0
    exact absurd (reach_low hb hda hr0)
      (not_lt_of_le (reach_high hb hext hsc hr))

theorem c10_config_isolation_witness :
    heapBounded h0c10 = true ∧
    buildSessionConfigH 10 h0c10 (some 0) 2 = some (7, metaC10, h1c10) ∧
    ((∀ a, a < h0c10.next → lookupH h1c10 a = lookupH h0c10 a) ∧
     h0c10.next ≤ 7 ∧
     (∀ a, ReachableH h1c10 7 a → ¬ ReachableH h0c10 0 a) ∧
     (∀ a, ReachableH h1c10 7 a → ¬ ReachableH h0c10 2 a)) :=
  ⟨by decide, by decide,
    c10_config_isolation 10 h0c10 0 2 7 metaC10 h1c10 (by decide) (by decide)
      (by decide) (by decide)⟩

end ClaimC10
